import Mathlib

/-!
# libblkmaker: `blkmaker.c`

A shallow embedding of `src/blkmaker.c` and proofs about it.

Modelling conventions.

* A byte buffer is a `List Nat`; the length of the list is the size of the
  allocated object.  A pointer into a buffer is the buffer together with an
  offset.  Every memory access is bounds checked: a function of the model
  returns `none` when the C code would read or write outside an object
  (undefined behaviour), and `some r` when it runs to completion.
* `size_t` is 64 bits wide and `unsigned int` 32 bits wide; arithmetic in those
  types is written with an explicit reduction modulo `2 ^ 64` or `2 ^ 32`.
* Indeterminate memory (the fresh bytes of `realloc`, the variable length
  arrays on the stack) is filled from an arbitrary function `Nat → Nat`.
* The headers `blkmaker.h` and `blktemplate.h` are not part of the sources.
  The two mutation flags they declare, the hash capability installed in the
  global `blkmk_sha256_impl`, and the object representation of an `unsigned
  int` are collected in `Env` and are parameters of the development.
* Times are integers (`difftime` of two integer times is their difference).
  The types `blktime_t` and `blktime_diff_t` are declared in the absent
  headers. A `blktime_t` value is an integer here; a `blktime_diff_t` value
  is a signed 16-bit integer, like the `int16_t` expiry hint of
  `blkmk_get_data`, and `to_blktime_diff` is the conversion to it.
* Loop counters and offsets are natural numbers: they index the array
  `hashes`, which exists, so they stay far below the range of `int`.
-/

namespace Blkmaker

/-- A byte buffer; the length of the list is the size of the object. -/
abbrev Bytes := List Nat

/-- Number of values of a `size_t`. -/
def SIZE_MOD : Nat := 2 ^ 64

/-- Number of values of an `unsigned int`. -/
def UINT_MOD : Nat := 2 ^ 32

/-- The constant `UINT_MAX` of `limits.h`. -/
def UINT_MAX : Nat := 2 ^ 32 - 1

/-- Subtraction of two `size_t` values (wraps around). -/
def size_sub (a b : Nat) : Nat := (a % SIZE_MOD + SIZE_MOD - b % SIZE_MOD) % SIZE_MOD

/-- Addition of two `size_t` values (wraps around). -/
def size_add (a b : Nat) : Nat := (a + b) % SIZE_MOD

/-- Conversion of a `size_t` to `ssize_t` (two's complement). -/
def to_ssize (a : Nat) : Int :=
  if a % SIZE_MOD < 2 ^ 63 then ((a % SIZE_MOD : Nat) : Int) else ((a % SIZE_MOD : Nat) : Int) - 2 ^ 64

/-- Read `n` bytes at offset `off` of the object `m`. -/
def rd (m : Bytes) (off n : Nat) : Option Bytes :=
  if off + n ≤ m.length then some ((m.drop off).take n) else none

/-- Write the bytes `src` at offset `off` of the object `m`. -/
def wr (m : Bytes) (off : Nat) (src : Bytes) : Option Bytes :=
  if off + src.length ≤ m.length then
    some (m.take off ++ src ++ m.drop (off + src.length))
  else none

/-- An object of `n` bytes with indeterminate content. -/
def uninit (junk : Nat → Nat) (n : Nat) : Bytes := (List.range n).map junk

/-- What the absent headers and the platform provide. -/
structure Env where
  /-- The hash capability in the global `blkmk_sha256_impl`: the digest of the
  input, or `none` when the call returns `false`. -/
  blkmk_sha256_impl : Bytes → Option Bytes
  /-- Flag "coinbase append allowed" of the mutation bitmask. -/
  BMM_CBAPPEND : Nat
  /-- Flag "coinbase set allowed" of the mutation bitmask. -/
  BMM_CBSET : Nat
  /-- Object representation (`sizeof (unsigned int)` bytes) of an `unsigned int`. -/
  uint_repr : Nat → Bytes

/-- The type `blktxn_t`: a buffer and the recorded length of the transaction. -/
structure blktxn_t where
  data : Bytes
  datasz : Nat
deriving DecidableEq, Repr

/-- The fields of `blktemplate_t` that `blkmaker.c` uses; `txncount` is the
length of `txns`. -/
structure blktemplate_t where
  version : Nat
  prevblk : Bytes
  diffbits : Bytes
  curtime : Int
  maxtime : Int
  expires : Int
  _time_rcvd : Int
  mutations : Nat
  txns : List blktxn_t
  cbtxn : blktxn_t
  next_dataid : Nat
  _mrklroot : Bytes
deriving DecidableEq, Repr

/-- The bytes of a transaction: the first `datasz` bytes of its buffer. -/
def blktxn_t.bytes (t : blktxn_t) : Bytes := t.data.take t.datasz

/-- `my_htole32 (&buf[off], n)`. -/
def my_htole32 (buf : Bytes) (off : Nat) (n : Nat) : Option Bytes :=
  wr buf off [(n >>> 0) % 256, (n >>> 8) % 256, (n >>> 16) % 256, (n >>> 24) % 256]

/-- `dblsha256 (&hash[hoff], data, datasz)`, where `data` holds the `datasz`
input bytes as they are when the call starts (input and output may overlap).
The second call of the capability reads the 32 bytes the first one wrote. -/
def dblsha256 (E : Env) (hash : Bytes) (hoff : Nat) (data : Bytes) : Option (Bool × Bytes) :=
  match E.blkmk_sha256_impl data with
  | none => some (false, hash)
  | some h1 =>
    match wr hash hoff h1 with
    | none => none
    | some m1 =>
      match rd m1 hoff 32 with
      | none => none
      | some d2 =>
        match E.blkmk_sha256_impl d2 with
        | none => some (false, m1)
        | some h2 =>
          match wr m1 hoff h2 with
          | none => none
          | some m2 => some (true, m2)

/-- The loop `for (int i = 0; i < tmpl->txncount; ++i)` of `build_merkle_root`,
entered at index `i` with the transactions from `i` onwards. -/
def leafLoop (E : Env) : List blktxn_t → Nat → Bytes → Option (Bool × Bytes)
  | [], _, hashes => some (true, hashes)
  | t :: ts, i, hashes =>
    match rd t.data 0 t.datasz with
    | none => none
    | some d =>
      match dblsha256 E hashes (32 * (i + 1)) d with
      | none => none
      | some (false, m) => some (false, m)
      | some (true, m) => leafLoop E ts (i + 1) m

/-- The loop `for (int i = 0; i < hashcount; i += 2)` of `build_merkle_root`,
entered at index `i`; `fuel` bounds the number of iterations. -/
def pairLoop (E : Env) (hashcount : Nat) : Nat → Nat → Bytes → Option (Bool × Bytes)
  | 0, i, hashes => if i < hashcount then none else some (true, hashes)
  | fuel + 1, i, hashes =>
    if i < hashcount then
      match rd hashes (32 * i) 64 with
      | none => none
      | some d =>
        match dblsha256 E hashes (i / 2 * 32) d with
        | none => none
        | some (false, m) => some (false, m)
        | some (true, m) => pairLoop E hashcount fuel (i + 2) m
    else some (true, hashes)

/-- The statement `if (hashcount % 2) { memcpy (...); ++hashcount; }`. -/
def dupLast (hashes : Bytes) (hashcount : Nat) : Option (Bytes × Nat) :=
  if hashcount % 2 ≠ 0 then
    match rd hashes (32 * (hashcount - 1)) 32 with
    | none => none
    | some d =>
      match wr hashes (32 * hashcount) d with
      | none => none
      | some m => some (m, hashcount + 1)
  else some (hashes, hashcount)

/-- The loop `while (hashcount > 1)` of `build_merkle_root`; `fuel` bounds the
number of iterations. -/
def foldLoop (E : Env) : Nat → Nat → Bytes → Option (Bool × Bytes)
  | 0, hashcount, hashes => if hashcount > 1 then none else some (true, hashes)
  | fuel + 1, hashcount, hashes =>
    if hashcount > 1 then
      match dupLast hashes hashcount with
      | none => none
      | some (m1, hc1) =>
        match pairLoop E hc1 hc1 0 m1 with
        | none => none
        | some (false, m) => some (false, m)
        | some (true, m2) => foldLoop E fuel (hc1 / 2) m2
    else some (true, hashes)

/-- `build_merkle_root (&out[outoff], tmpl, cbtxndata, cbtxndatasz)`; `stack`
is the indeterminate content of the array `hashes`.  The result is the
returned flag and the content of `out`. -/
def build_merkle_root (E : Env) (stack : Nat → Nat) (out : Bytes) (outoff : Nat)
    (tmpl : blktemplate_t) (cbtxndata : Bytes) (cbtxndatasz : Nat) : Option (Bool × Bytes) :=
  let hashcount := tmpl.txns.length + 1
  let hashes := uninit stack ((hashcount + 1) * 32)
  match rd cbtxndata 0 cbtxndatasz with
  | none => none
  | some cb =>
    match dblsha256 E hashes 0 cb with
    | none => none
    | some (false, _) => some (false, out)
    | some (true, m0) =>
      match leafLoop E tmpl.txns 0 m0 with
      | none => none
      | some (false, _) => some (false, out)
      | some (true, m1) =>
        match foldLoop E hashcount hashcount m1 with
        | none => none
        | some (false, _) => some (false, out)
        | some (true, m2) =>
          match rd m2 0 32 with
          | none => none
          | some root =>
            match wr out outoff root with
            | none => none
            | some o => some (true, o)

/-- The constant `cbScriptSigLen`. -/
def cbScriptSigLen : Nat := 4 + 1 + 36

/-- `_blkmk_append_cb (tmpl, vout, append, appendsz)`.  `vout = none` stands
for `vout == tmpl->cbtxn->data` (the output is the input buffer itself) and
`vout = some out` for a buffer distinct from it.  The result is the returned
flag and the content of the output buffer. -/
def _blkmk_append_cb (tmpl : blktemplate_t) (vout : Option Bytes) (append : Bytes)
    (appendsz : Nat) : Option (Bool × Bytes) :=
  let inb := tmpl.cbtxn.data
  let insz := tmpl.cbtxn.datasz
  let out := vout.getD inb
  match inb[cbScriptSigLen]? with
  | none => none
  | some l =>
    if l > size_sub 100 appendsz then some (false, out)
    else
      let cbPostScriptSig := cbScriptSigLen + 1 + l
      let outPostScriptSig := cbPostScriptSig + appendsz
      let tailsz := size_sub insz cbPostScriptSig
      let moved : Option Bytes :=
        match vout with
        | some o =>
          match rd inb 0 (cbPostScriptSig + 1) with
          | none => none
          | some head =>
            match wr o 0 head with
            | none => none
            | some o1 =>
              match rd inb cbPostScriptSig tailsz with
              | none => none
              | some tl => wr o1 outPostScriptSig tl
        | none =>
          match rd inb cbPostScriptSig tailsz with
          | none => none
          | some tl => wr inb outPostScriptSig tl
      match moved with
      | none => none
      | some o2 =>
        match o2[cbScriptSigLen]? with
        | none => none
        | some b =>
          match wr o2 cbScriptSigLen [(b + appendsz) % 256] with
          | none => none
          | some o3 =>
            match rd append 0 appendsz with
            | none => none
            | some a =>
              match wr o3 cbPostScriptSig a with
              | none => none
              | some o4 => some (true, o4)

/-- A successful `realloc (data, newsz)`: the old content up to the smaller of
the two sizes, then indeterminate bytes. -/
def realloc (data : Bytes) (newsz : Nat) (junk : Nat → Nat) : Bytes :=
  data.take newsz ++ uninit junk (newsz - data.length)

/-- The test `tmpl->mutations & (BMM_CBAPPEND | BMM_CBSET)`. -/
def cbMutable (E : Env) (tmpl : blktemplate_t) : Bool :=
  tmpl.mutations &&& (E.BMM_CBAPPEND ||| E.BMM_CBSET) != 0

/-- `blkmk_append_coinbase_safe (tmpl, append, appendsz)`.  `heap = none`
stands for a `realloc` that returns `NULL`, `heap = some junk` for one that
succeeds and leaves `junk` in the fresh bytes.  The result is the returned
value and the template afterwards. -/
def blkmk_append_coinbase_safe (E : Env) (tmpl : blktemplate_t) (append : Bytes)
    (appendsz : Nat) (heap : Option (Nat → Nat)) : Option (Int × blktemplate_t) :=
  if !cbMutable E tmpl then some (-1, tmpl)
  else
    let datasz := tmpl.cbtxn.datasz
    match tmpl.cbtxn.data[cbScriptSigLen]? with
    | none => none
    | some l =>
      let availsz := size_sub (size_sub 100 4) l
      if appendsz > availsz then some (to_ssize availsz, tmpl)
      else
        match heap with
        | none => some (-2, tmpl)
        | some junk =>
          let newp := realloc tmpl.cbtxn.data (size_add datasz appendsz) junk
          let tmpl1 := { tmpl with cbtxn := { tmpl.cbtxn with data := newp } }
          match _blkmk_append_cb tmpl1 none append appendsz with
          | none => none
          | some (false, o) => some (-3, { tmpl1 with cbtxn := { tmpl1.cbtxn with data := o } })
          | some (true, o) =>
            some (to_ssize availsz,
              { tmpl1 with cbtxn := { data := o, datasz := size_add datasz appendsz } })

/-- `_blkmk_extranonce (tmpl, vout, workid, offs)`, with `vout` a buffer
distinct from the coinbase buffer.  The result is the returned flag, the
content of `vout` and the value of `*offs`. -/
def _blkmk_extranonce (E : Env) (tmpl : blktemplate_t) (vout : Bytes) (workid : Nat)
    (offs : Nat) : Option (Bool × Bytes × Nat) :=
  let inb := tmpl.cbtxn.data
  let insz := tmpl.cbtxn.datasz
  if workid = 0 then
    match rd inb 0 insz with
    | none => none
    | some d =>
      match wr vout 0 d with
      | none => none
      | some o => some (true, o, size_add offs insz)
  else
    match _blkmk_append_cb tmpl (some vout) (E.uint_repr workid) 4 with
    | none => none
    | some (false, o) => some (false, o, offs)
    | some (true, o) => some (true, o, size_add offs (size_add insz 4))

/-- Modelled from the spec: the result type `blktime_diff_t` of
`blkmk_time_left` is declared in `blktemplate.h`, which is not among the
sources; the specification calls its values durations. It is taken as a signed
16-bit integer, the type `int16_t` that the source gives to the same duration
in `blkmk_get_data` (`*out_expire`). This is the conversion of a value to that
type: a value in `-32768 .. 32767` is kept; for any other value, where C
defines no result, it is what the usual compilers produce, the low 16 bits in
two's complement. -/
def to_blktime_diff (x : Int) : Int := (x + 2 ^ 15) % 2 ^ 16 - 2 ^ 15

/-- `blkmk_time_left (tmpl, nowtime)`: `age` is `difftime (nowtime,
tmpl->_time_rcvd)`; the statement `return tmpl->expires - age` converts the
difference to the result type `blktime_diff_t`. -/
def blkmk_time_left (tmpl : blktemplate_t) (nowtime : Int) : Int :=
  let age := nowtime - tmpl._time_rcvd
  if age ≥ tmpl.expires then 0 else to_blktime_diff (tmpl.expires - age)

/-- `blkmk_work_left (tmpl)`; the statement after the third `return` is never
reached. -/
def blkmk_work_left (E : Env) (tmpl : blktemplate_t) : Nat :=
  if tmpl.version = 0 then 0
  else if !cbMutable E tmpl then 1
  else UINT_MAX - tmpl.next_dataid

/-- What a call of `blkmk_get_data` leaves behind: the returned value, the
template, the content of `buf` and the value of `*out_dataid`. -/
structure GetData where
  ret : Nat
  tmpl : blktemplate_t
  buf : Bytes
  out_dataid : Nat
deriving DecidableEq, Repr

/-- `blkmk_get_data (tmpl, buf, bufsz, usetime, out_expire, out_dataid)`.
`out_dataid` is the value of `*out_dataid` before the call, `scratch` and
`stack` the indeterminate contents of the arrays `cbtxndata` and `hashes`;
`*out_expire` is never touched. -/
def blkmk_get_data (E : Env) (scratch stack : Nat → Nat) (tmpl : blktemplate_t) (buf : Bytes)
    (bufsz : Nat) (usetime : Int) (out_dataid : Nat) : Option GetData :=
  if !(blkmk_time_left tmpl usetime != 0 && blkmk_work_left E tmpl != 0) then
    some ⟨0, tmpl, buf, out_dataid⟩
  else if bufsz < 76 then some ⟨76, tmpl, buf, out_dataid⟩
  else
    match my_htole32 buf 0 tmpl.version with
    | none => none
    | some b1 =>
      match rd tmpl.prevblk 0 32 with
      | none => none
      | some pb =>
        match wr b1 4 pb with
        | none => none
        | some b2 =>
          let cbtxndata := uninit scratch (size_add tmpl.cbtxn.datasz 4)
          let dataid := tmpl.next_dataid
          let tmpl1 := { tmpl with next_dataid := (tmpl.next_dataid + 1) % UINT_MOD }
          match _blkmk_extranonce E tmpl1 cbtxndata dataid 0 with
          | none => none
          | some (false, _, _) => some ⟨0, tmpl1, b2, dataid⟩
          | some (true, cb, cbtxndatasz) =>
            match build_merkle_root E stack b2 36 tmpl1 cb cbtxndatasz with
            | none => none
            | some (false, b3) => some ⟨0, tmpl1, b3, dataid⟩
            | some (true, b3) =>
              let timehdr : Int := tmpl1.curtime + (usetime - tmpl1._time_rcvd)
              let timehdr : Int := if timehdr > tmpl1.maxtime then tmpl1.maxtime else timehdr
              match my_htole32 b3 68 (timehdr % 2 ^ 32).toNat with
              | none => none
              | some b4 =>
                match rd tmpl1.diffbits 0 4 with
                | none => none
                | some db =>
                  match wr b4 72 db with
                  | none => none
                  | some b5 =>
                    match rd b5 36 32 with
                    | none => none
                    | some root =>
                      match wr tmpl1._mrklroot 0 root with
                      | none => none
                      | some mr => some ⟨76, { tmpl1 with _mrklroot := mr }, b5, dataid⟩

/-! ## The reference fold of the specification -/

/-- Double hash: hash the data, then hash the 32-byte result. -/
def dblHash (sha : Bytes → Option Bytes) (x : Bytes) : Option Bytes :=
  (sha x).bind sha

/-- The leaves: the double hash of each transaction, in the given order. -/
def leafHashes (sha : Bytes → Option Bytes) : List Bytes → Option (List Bytes)
  | [] => some []
  | x :: xs =>
    match dblHash sha x with
    | none => none
    | some h =>
      match leafHashes sha xs with
      | none => none
      | some hs => some (h :: hs)

/-- One fold step: each adjacent pair `(h[2i], h[2i+1])` is replaced by the
double hash of `h[2i] ++ h[2i+1]`. -/
def foldPairs (sha : Bytes → Option Bytes) : List Bytes → Option (List Bytes)
  | a :: b :: rest =>
    match dblHash sha (a ++ b) with
    | none => none
    | some h =>
      match foldPairs sha rest with
      | none => none
      | some hs => some (h :: hs)
  | _ => some []

/-- The fold over fresh lists: while more than one hash remains, duplicate the
last hash if the count is odd, then fold the pairs.  `fuel` bounds the number
of rounds; the number of hashes is always enough. -/
def merkleFold (sha : Bytes → Option Bytes) : Nat → List Bytes → Option Bytes
  | 0, hs => hs.head?
  | fuel + 1, hs =>
    if 1 < hs.length then
      match foldPairs sha (if hs.length % 2 = 1 then hs ++ hs.getLast?.toList else hs) with
      | none => none
      | some hs1 => merkleFold sha fuel hs1
    else hs.head?

/-- The merkle root of a coinbase and an ordered list of other transactions;
`none` when a call of the hash fails. -/
def merkleRoot (sha : Bytes → Option Bytes) (coinbase : Bytes) (txs : List Bytes) :
    Option Bytes :=
  match leafHashes sha (coinbase :: txs) with
  | none => none
  | some leaves => merkleFold sha leaves.length leaves

/-- Every digest of the hash capability has 32 bytes. -/
def Digest32 (sha : Bytes → Option Bytes) : Prop :=
  ∀ d h, sha d = some h → h.length = 32

/-- Every hash in the list has 32 bytes. -/
def All32 (S : List Bytes) : Prop := ∀ s ∈ S, s.length = 32

/-- The outcome of `build_merkle_root` that the reference fold prescribes:
the root written at `outoff`, or the flag `false` and an untouched buffer. -/
def rootOutcome (out : Bytes) (outoff : Nat) : Option Bytes → Bool × Bytes
  | none => (false, out)
  | some root => (true, out.take outoff ++ root ++ out.drop (outoff + 32))

/-- The bytes the specification prescribes for splicing `a` after the script
payload of the coinbase `inb` of `n` bytes with script length `l`:
`in[0..41) ++ [l + |a|] ++ in[42..42+l) ++ a ++ in[42+l..n)`. -/
def spliced (inb : Bytes) (l n : Nat) (a : Bytes) : Bytes :=
  inb.take 41 ++ [l + a.length] ++ (inb.drop 42).take l ++ a ++
    (inb.drop (42 + l)).take (n - (42 + l))

/-- The header bytes that a successful `blkmk_get_data` leaves in the buffer. -/
def HeaderOk (tmpl : blktemplate_t) (buf b : Bytes) (root : Bytes) : Prop :=
  b.length = buf.length ∧
  b.take 4 = [tmpl.version % 256, tmpl.version / 2 ^ 8 % 256, tmpl.version / 2 ^ 16 % 256,
    tmpl.version / 2 ^ 24 % 256] ∧
  (b.drop 4).take 32 = tmpl.prevblk ∧
  (b.drop 36).take 32 = root ∧
  (b.drop 72).take 4 = tmpl.diffbits ∧
  b.drop 76 = buf.drop 76

/-- Successive calls of `blkmk_append_coinbase_safe`, one per chunk, each with
a `realloc` that succeeds; collects for every call the returned value and the
recorded length of the coinbase after it. -/
def appendAll (E : Env) :
    blktemplate_t → List (Bytes × (Nat → Nat)) → Option (List (Int × Nat) × blktemplate_t)
  | tmpl, [] => some ([], tmpl)
  | tmpl, (a, junk) :: rest =>
    match blkmk_append_coinbase_safe E tmpl a a.length (some junk) with
    | none => none
    | some (r, tmpl1) =>
      match appendAll E tmpl1 rest with
      | none => none
      | some (rs, tmpl2) => some ((r, tmpl1.cbtxn.datasz) :: rs, tmpl2)

/-- What the calls must report: the capacity available before each call and
the recorded length grown by the chunk length. -/
def expectedCalls : Nat → Nat → List Nat → List (Int × Nat)
  | _, _, [] => []
  | avail, n, s :: rest => ((avail : Int), n + s) :: expectedCalls (avail - s) (n + s) rest

/-- The four bytes of the little-endian encoding of `m`. -/
def le32 (m : Nat) : Bytes := [m % 256, m / 2 ^ 8 % 256, m / 2 ^ 16 % 256, m / 2 ^ 24 % 256]

/-! ## Concrete inputs for the examples -/

/-- A hash capability that always succeeds: 30 zero bytes, then the length
and the sum of the input, both modulo 256. -/
def toySha (d : Bytes) : Option Bytes :=
  some (List.replicate 30 0 ++ [d.length % 256, d.sum % 256])

/-- A hash capability that fails exactly on inputs of 64 bytes, that is on
every fold step. -/
def pickySha (d : Bytes) : Option Bytes :=
  if d.length = 64 then none else toySha d

/-- Little-endian object representation of an `unsigned int`. -/
def le_repr (w : Nat) : Bytes :=
  [w % 256, w / 256 % 256, w / 65536 % 256, w / 16777216 % 256]

/-- An environment with the always succeeding hash. -/
def toyEnv : Env := ⟨toySha, 65536, 131072, le_repr⟩

/-- An environment whose hash fails on every fold step. -/
def pickyEnv : Env := ⟨pickySha, 65536, 131072, le_repr⟩

/-- A coinbase of 49 bytes: 41 bytes, the script length 2, the script `7 8`,
then five more bytes. -/
def exCoinbase : blktxn_t := ⟨List.replicate 41 0 ++ [2, 7, 8] ++ [1, 2, 3, 4, 5], 49⟩

/-- A template with two other transactions that permits coinbase append. -/
def exTmpl : blktemplate_t :=
  { version := 2, prevblk := List.replicate 32 9, diffbits := [1, 2, 3, 4], curtime := 1000,
    maxtime := 2000, expires := 120, _time_rcvd := 500, mutations := 65536,
    txns := [⟨[1, 2, 3], 3⟩, ⟨[4, 5], 2⟩], cbtxn := exCoinbase, next_dataid := 0,
    _mrklroot := List.replicate 32 0 }

/-- The example template with four spare bytes behind the 49 bytes of the
coinbase, as `realloc` leaves it. -/
def exRoomy : blktemplate_t :=
  { exTmpl with cbtxn := ⟨exCoinbase.data ++ [0, 0, 0, 0], 49⟩ }

/-- A template that permits coinbase append whose coinbase has a script of 97
bytes (144 bytes in all). -/
def exTight : blktemplate_t :=
  { exTmpl with
    cbtxn := ⟨List.replicate 41 0 ++ [97] ++ List.replicate 97 7 ++ [1, 2, 3, 4, 5], 144⟩ }

/-- The example template with a mutation bitmask that forbids both coinbase
append and coinbase set. -/
def exFrozen : blktemplate_t := { exTmpl with mutations := 0 }

/-- The template `exFrozen` after 4294967295 work identifiers have been
handed out. -/
def exFrozenMax : blktemplate_t := { exFrozen with next_dataid := 4294967295 }

/-- The template `exTight` after `realloc` has grown its coinbase buffer from
144 to 245 bytes for an append of 101 bytes. -/
def exTightGrown : blktemplate_t :=
  { exTight with cbtxn := ⟨realloc exTight.cbtxn.data 245 (fun _ => 0), 144⟩ }

/-! ## Memory lemmas -/

theorem rd_eq_some {m : Bytes} {off n : Nat} (h : off + n ≤ m.length) :
    rd m off n = some ((m.drop off).take n) := by
  simp [rd, h]

theorem wr_eq_some {m src : Bytes} {off : Nat} (h : off + src.length ≤ m.length) :
    wr m off src = some (m.take off ++ src ++ m.drop (off + src.length)) := by
  simp [wr, h]

theorem rd_length {m d : Bytes} {off n : Nat} (h : rd m off n = some d) : d.length = n := by
  unfold rd at h
  split at h
  · cases h
    simp
    omega
  · cases h

theorem wr_length {m src o : Bytes} {off : Nat} (h : wr m off src = some o) :
    o.length = m.length := by
  unfold wr at h
  split at h
  · cases h
    simp
    omega
  · cases h

theorem wr_getElem? {m src o : Bytes} {off : Nat} (h : wr m off src = some o) (i : Nat) :
    o[i]? = if off ≤ i ∧ i < off + src.length then src[i - off]? else m[i]? := by
  unfold wr at h
  by_cases hle : off + src.length ≤ m.length
  · rw [if_pos hle] at h
    cases h
    have hlen : (m.take off).length = off := by
      rw [List.length_take]
      omega
    rw [List.append_assoc]
    by_cases h1 : i < off
    · rw [if_neg (by omega), List.getElem?_append_left (by omega), List.getElem?_take_of_lt h1]
    · rw [List.getElem?_append_right (by omega), hlen]
      by_cases h2 : i < off + src.length
      · rw [if_pos (by omega), List.getElem?_append_left (by omega)]
      · rw [if_neg (by omega), List.getElem?_append_right (by omega), List.getElem?_drop]
        congr 1
        omega
  · rw [if_neg hle] at h
    cases h

theorem rd_getElem? {m d : Bytes} {off n : Nat} (h : rd m off n = some d) (i : Nat) :
    d[i]? = if i < n then m[off + i]? else none := by
  unfold rd at h
  split at h
  · cases h
    simp [List.getElem?_take, List.getElem?_drop]
  · cases h

theorem rd_mid (A x B : Bytes) (k n : Nat) (hk : A.length = k) (hn : x.length = n) :
    rd (A ++ (x ++ B)) k n = some x := by
  subst hk hn
  simp [rd]

theorem wr_mid (A x B h : Bytes) (k : Nat) (hk : A.length = k) (hn : h.length = x.length) :
    wr (A ++ (x ++ B)) k h = some (A ++ (h ++ B)) := by
  subst hk
  simp [wr, hn]

/-! ## Arrays of 32-byte slots -/

theorem All32.flatten_length {S : List Bytes} (h : All32 S) :
    S.flatten.length = 32 * S.length := by
  induction S with
  | nil => simp
  | cons a t ih =>
    have ha : a.length = 32 := h a (List.mem_cons_self _ _)
    have ht : All32 t := fun s hs => h s (List.mem_cons_of_mem _ hs)
    simp only [List.flatten_cons, List.length_append, List.length_cons, ih ht, ha]
    omega

theorem All32.take {S : List Bytes} (h : All32 S) (n : Nat) : All32 (S.take n) :=
  fun s hs => h s (List.mem_of_mem_take hs)

theorem All32.set {S : List Bytes} (h : All32 S) (i : Nat) {x : Bytes} (hx : x.length = 32) :
    All32 (S.set i x) := by
  intro s hs
  rcases List.mem_or_eq_of_mem_set hs with h1 | h1
  · exact h s h1
  · rw [h1]
    exact hx

theorem split_at_slot : ∀ (S : List Bytes) (i : Nat) (x : Bytes), S[i]? = some x →
    S = S.take i ++ x :: S.drop (i + 1)
  | [], i, x, h => by simp at h
  | a :: t, 0, x, h => by
    simp at h
    simp [h]
  | a :: t, i + 1, x, h => by
    simp at h
    have := split_at_slot t i x h
    simp only [List.take_succ_cons, List.drop_succ_cons, List.cons_append]
    rw [← this]

theorem set_eq_at_slot : ∀ (S : List Bytes) (i : Nat) (h : Bytes), i < S.length →
    S.set i h = S.take i ++ h :: S.drop (i + 1)
  | [], i, h, hi => by simp at hi
  | a :: t, 0, h, _ => by simp
  | a :: t, i + 1, h, hi => by
    simp at hi
    simp [set_eq_at_slot t i h hi]

theorem take_succ_set : ∀ (S : List Bytes) (i : Nat) (h : Bytes), i < S.length →
    (S.set i h).take (i + 1) = S.take i ++ [h]
  | [], i, h, hi => by simp at hi
  | a :: t, 0, h, _ => by simp
  | a :: t, i + 1, h, hi => by
    simp at hi
    simp [take_succ_set t i h hi]

theorem drop_set_above : ∀ (S : List Bytes) (i k : Nat) (h : Bytes), i < k →
    (S.set i h).drop k = S.drop k
  | [], i, k, h, _ => by simp
  | a :: t, 0, k + 1, h, _ => by simp
  | a :: t, i + 1, k + 1, h, hik => by
    simp [drop_set_above t i k h (by omega)]
  | a :: t, i, 0, h, hik => by omega

theorem take_flatten_length {S : List Bytes} (hS : All32 S) {i : Nat} (hi : i ≤ S.length) :
    (S.take i).flatten.length = 32 * i := by
  rw [(hS.take i).flatten_length, List.length_take]
  congr 1
  omega

theorem rd_slot {S : List Bytes} (hS : All32 S) {i : Nat} {x : Bytes} (hx : S[i]? = some x) :
    rd S.flatten (32 * i) 32 = some x := by
  have hi : i < S.length := by
    rcases Nat.lt_or_ge i S.length with h | h
    · exact h
    · rw [List.getElem?_eq_none h] at hx
      cases hx
  have hx32 : x.length = 32 := hS x (List.getElem?_mem hx)
  have hsplit := split_at_slot S i x hx
  have hfl : S.flatten = (S.take i).flatten ++ (x ++ (S.drop (i + 1)).flatten) := by
    conv_lhs => rw [hsplit]
    simp
  rw [hfl]
  exact rd_mid _ _ _ _ _ (take_flatten_length hS (by omega)) hx32

theorem rd_slot2 {S : List Bytes} (hS : All32 S) {i : Nat} {x y : Bytes}
    (hx : S[i]? = some x) (hy : S[i + 1]? = some y) :
    rd S.flatten (32 * i) 64 = some (x ++ y) := by
  have hi : i + 1 < S.length := by
    rcases Nat.lt_or_ge (i + 1) S.length with h | h
    · exact h
    · rw [List.getElem?_eq_none h] at hy
      cases hy
  have hx32 : x.length = 32 := hS x (List.getElem?_mem hx)
  have hy32 : y.length = 32 := hS y (List.getElem?_mem hy)
  have hsplit := split_at_slot S i x hx
  have hy0 : (S.drop (i + 1))[0]? = some y := by
    rw [List.getElem?_drop]
    exact hy
  have hsplit2 := split_at_slot (S.drop (i + 1)) 0 y hy0
  have hfl : S.flatten = (S.take i).flatten ++ ((x ++ y) ++ (S.drop (i + 2)).flatten) := by
    conv_lhs => rw [hsplit, hsplit2]
    simp
  rw [hfl]
  exact rd_mid _ _ _ _ _ (take_flatten_length hS (by omega)) (by simp [hx32, hy32])

theorem wr_slot {S : List Bytes} (hS : All32 S) {i : Nat} (hi : i < S.length) {h : Bytes}
    (hh : h.length = 32) : wr S.flatten (32 * i) h = some (S.set i h).flatten := by
  have hx : S[i]? = some S[i] := List.getElem?_eq_getElem hi
  have hx32 : S[i].length = 32 := hS _ (List.getElem?_mem hx)
  have hsplit := split_at_slot S i _ hx
  have hfl : S.flatten = (S.take i).flatten ++ (S[i] ++ (S.drop (i + 1)).flatten) := by
    conv_lhs => rw [hsplit]
    rw [List.flatten_append, List.flatten_cons]
  rw [set_eq_at_slot S i h hi]
  conv_lhs => rw [hfl]
  rw [wr_mid _ _ _ h _ (take_flatten_length hS (by omega)) (by rw [hh, hx32])]
  simp

theorem exists_slots : ∀ (k : Nat) (m : Bytes), m.length = 32 * k →
    ∃ S : List Bytes, S.length = k ∧ All32 S ∧ S.flatten = m
  | 0, m, h => by
    have hm : m = [] := List.length_eq_zero.mp (by omega)
    refine ⟨[], rfl, ?_, by simp [hm]⟩
    intro s hs
    cases hs
  | k + 1, m, h => by
    obtain ⟨S, h1, h2, h3⟩ := exists_slots k (m.drop 32) (by rw [List.length_drop]; omega)
    refine ⟨m.take 32 :: S, by simp [h1], ?_, by simp [h3]⟩
    intro s hs
    rcases List.mem_cons.mp hs with h4 | h4
    · rw [h4, List.length_take]
      omega
    · exact h2 s h4

/-! ## The merkle loops on an array of slots -/

theorem dblHash_length {sha : Bytes → Option Bytes} (hd : Digest32 sha) {d h : Bytes}
    (hh : dblHash sha d = some h) : h.length = 32 := by
  unfold dblHash at hh
  cases h1 : sha d with
  | none => simp [h1] at hh
  | some x =>
    simp [h1] at hh
    exact hd _ _ hh

theorem dblsha256_slot (E : Env) (hd : Digest32 E.blkmk_sha256_impl) {S : List Bytes}
    (hS : All32 S) {i : Nat} (hi : i < S.length) (d : Bytes) :
    (dblHash E.blkmk_sha256_impl d = none → ∃ x, dblsha256 E S.flatten (32 * i) d = some (false, x)) ∧
    (∀ h, dblHash E.blkmk_sha256_impl d = some h →
      dblsha256 E S.flatten (32 * i) d = some (true, (S.set i h).flatten)) := by
  unfold dblsha256 dblHash
  cases h1 : E.blkmk_sha256_impl d with
  | none => exact ⟨fun _ => ⟨_, rfl⟩, fun h hh => by simp at hh⟩
  | some x =>
    have hx : x.length = 32 := hd _ _ h1
    have hS1 : All32 (S.set i x) := hS.set i hx
    have hi1 : i < (S.set i x).length := by simpa using hi
    have hget : (S.set i x)[i]? = some x := by
      simp [List.getElem?_set, hi]
    simp only [Option.some_bind, wr_slot hS hi hx, rd_slot hS1 hget]
    cases h2 : E.blkmk_sha256_impl x with
    | none => exact ⟨fun _ => ⟨_, rfl⟩, fun h hh => by simp at hh⟩
    | some y =>
      have hy : y.length = 32 := hd _ _ h2
      refine ⟨fun hh => by simp at hh, fun h hh => ?_⟩
      simp only [Option.some.injEq] at hh
      subst hh
      simp only [wr_slot hS1 hi1 hy, List.set_set]

theorem leafLoop_spec (E : Env) (hd : Digest32 E.blkmk_sha256_impl) :
    ∀ (txns : List blktxn_t) (i : Nat) (S : List Bytes), All32 S →
      i + 1 + txns.length ≤ S.length → (∀ t ∈ txns, t.datasz ≤ t.data.length) →
      (leafHashes E.blkmk_sha256_impl (txns.map blktxn_t.bytes) = none →
        ∃ x, leafLoop E txns i S.flatten = some (false, x)) ∧
      (∀ ls, leafHashes E.blkmk_sha256_impl (txns.map blktxn_t.bytes) = some ls →
        ∃ S1, leafLoop E txns i S.flatten = some (true, S1.flatten) ∧ All32 S1 ∧
          S1.length = S.length ∧ S1.take (i + 1 + txns.length) = S.take (i + 1) ++ ls)
  | [], i, S, hS, _, _ => by
    refine ⟨fun h => by simp [leafHashes] at h, fun ls h => ?_⟩
    simp [leafHashes] at h
    subst h
    exact ⟨S, rfl, hS, rfl, by simp⟩
  | t :: ts, i, S, hS, hlen, hwf => by
    have ht : t.datasz ≤ t.data.length := hwf t (List.mem_cons_self _ _)
    have hts : ∀ u ∈ ts, u.datasz ≤ u.data.length := fun u hu => hwf u (List.mem_cons_of_mem _ hu)
    simp only [List.length_cons] at hlen
    have hrd : rd t.data 0 t.datasz = some t.bytes := by
      rw [rd_eq_some (by omega)]
      simp [blktxn_t.bytes]
    have hslot := dblsha256_slot E hd hS (show i + 1 < S.length by omega) t.bytes
    simp only [List.map_cons, leafHashes, leafLoop, hrd]
    cases h1 : dblHash E.blkmk_sha256_impl t.bytes with
    | none =>
      obtain ⟨x, hx⟩ := hslot.1 h1
      rw [hx]
      exact ⟨fun _ => ⟨x, rfl⟩, fun ls h => by simp at h⟩
    | some h =>
      have h32 : h.length = 32 := dblHash_length hd h1
      rw [hslot.2 h h1]
      have ih := leafLoop_spec E hd ts (i + 1) (S.set (i + 1) h) (hS.set _ h32)
        (by simp; omega) hts
      simp only []
      cases h2 : leafHashes E.blkmk_sha256_impl (ts.map blktxn_t.bytes) with
      | none =>
        obtain ⟨x, hx⟩ := ih.1 h2
        exact ⟨fun _ => ⟨x, hx⟩, fun ls h => by simp at h⟩
      | some hs =>
        obtain ⟨S1, e1, e2, e3, e4⟩ := ih.2 hs h2
        refine ⟨fun h => by simp at h, fun ls hls => ?_⟩
        simp only [Option.some.injEq] at hls
        subst hls
        refine ⟨S1, e1, e2, by simpa using e3, ?_⟩
        have e5 : i + 1 + (t :: ts).length = i + 1 + 1 + ts.length := by
          simp only [List.length_cons]
          omega
        rw [e5, e4, take_succ_set S (i + 1) h (by omega)]
        simp

theorem drop_take_pair {S : List Bytes} {j n : Nat} {a b : Bytes}
    (ha : S[2 * j]? = some a) (hb : S[2 * j + 1]? = some b) :
    (S.drop (2 * j)).take (2 * (n + 1)) = a :: b :: (S.drop (2 * (j + 1))).take (2 * n) := by
  have h1 : (S.drop (2 * j))[0]? = some a := by
    rw [List.getElem?_drop]
    exact ha
  have h2 : (S.drop (2 * j + 1))[0]? = some b := by
    rw [List.getElem?_drop]
    exact hb
  have s1 := split_at_slot _ 0 a h1
  have s2 := split_at_slot _ 0 b h2
  simp only [List.take_zero, List.nil_append, List.drop_drop] at s1 s2
  have e1 : 2 * j + (0 + 1) = 2 * j + 1 := by omega
  have e2 : 2 * j + 1 + (0 + 1) = 2 * (j + 1) := by omega
  have e3 : 0 + 1 + 2 * j = 2 * j + 1 := by omega
  have e4 : 0 + 1 + (2 * j + 1) = 2 * (j + 1) := by omega
  simp only [e1, e2, e3, e4] at s1 s2
  rw [s1, s2]
  have e5 : 2 * (n + 1) = 2 * n + 1 + 1 := by omega
  rw [e5, List.take_succ_cons, List.take_succ_cons]

theorem pairLoop_spec (E : Env) (hd : Digest32 E.blkmk_sha256_impl) (m : Nat) :
    ∀ (fuel j : Nat) (S : List Bytes), All32 S → 2 * m ≤ S.length → j ≤ m → m - j ≤ fuel →
      (foldPairs E.blkmk_sha256_impl ((S.drop (2 * j)).take (2 * (m - j))) = none →
        ∃ x, pairLoop E (2 * m) fuel (2 * j) S.flatten = some (false, x)) ∧
      (∀ R, foldPairs E.blkmk_sha256_impl ((S.drop (2 * j)).take (2 * (m - j))) = some R →
        ∃ S1, pairLoop E (2 * m) fuel (2 * j) S.flatten = some (true, S1.flatten) ∧ All32 S1 ∧
          S1.length = S.length ∧ S1.take m = S.take j ++ R) := by
  intro fuel
  induction fuel with
  | zero =>
    intro j S hS hlen hj hfuel
    have hjm : j = m := by omega
    subst hjm
    simp only [Nat.sub_self, Nat.mul_zero, List.take_zero, foldPairs, pairLoop, Nat.lt_irrefl,
      if_false]
    exact ⟨fun h => by simp at h, fun R h => ⟨S, rfl, hS, rfl, by simp at h; simp [← h]⟩⟩
  | succ fuel ih =>
    intro j S hS hlen hj hfuel
    rcases Nat.eq_or_lt_of_le hj with hjm | hjm
    · subst hjm
      simp only [Nat.sub_self, Nat.mul_zero, List.take_zero, foldPairs, pairLoop, Nat.lt_irrefl,
        if_false]
      exact ⟨fun h => by simp at h, fun R h => ⟨S, rfl, hS, rfl, by simp at h; simp [← h]⟩⟩
    · have ha : S[2 * j]? = some S[2 * j] := List.getElem?_eq_getElem (by omega)
      have hb : S[2 * j + 1]? = some S[2 * j + 1] := List.getElem?_eq_getElem (by omega)
      have hmj : m - j = (m - (j + 1)) + 1 := by omega
      have hlt : 2 * j < 2 * m := by omega
      have hoff : 2 * j / 2 * 32 = 32 * j := by omega
      have hslot := dblsha256_slot E hd hS (show j < S.length by omega) (S[2 * j] ++ S[2 * j + 1])
      rw [hmj, drop_take_pair ha hb]
      simp only [foldPairs, pairLoop, hlt, if_true, rd_slot2 hS ha hb, hoff]
      cases h1 : dblHash E.blkmk_sha256_impl (S[2 * j] ++ S[2 * j + 1]) with
      | none =>
        obtain ⟨x, hx⟩ := hslot.1 h1
        rw [hx]
        exact ⟨fun _ => ⟨x, rfl⟩, fun ls h => by simp at h⟩
      | some h =>
        have h32 : h.length = 32 := dblHash_length hd h1
        rw [hslot.2 h h1]
        have ih1 := ih (j + 1) (S.set j h) (hS.set _ h32) (by simpa using hlen) (by omega)
          (by omega)
        rw [drop_set_above S j (2 * (j + 1)) h (by omega)] at ih1
        have e1 : 2 * j + 2 = 2 * (j + 1) := by omega
        simp only [e1]
        cases h2 : foldPairs E.blkmk_sha256_impl
            ((S.drop (2 * (j + 1))).take (2 * (m - (j + 1)))) with
        | none =>
          obtain ⟨x, hx⟩ := ih1.1 h2
          exact ⟨fun _ => ⟨x, hx⟩, fun ls h => by simp at h⟩
        | some hs =>
          obtain ⟨S1, e1, e2, e3, e4⟩ := ih1.2 hs h2
          refine ⟨fun h => by simp at h, fun ls hls => ?_⟩
          simp only [Option.some.injEq] at hls
          subst hls
          refine ⟨S1, e1, e2, by simpa using e3, ?_⟩
          rw [e4, take_succ_set S j h (by omega)]
          simp

theorem dupLast_slot {S : List Bytes} (hS : All32 S) {hc : Nat} (h1 : 1 ≤ hc)
    (hlen : hc + 1 ≤ S.length) :
    ∃ S1, dupLast S.flatten hc = some (S1.flatten, hc + hc % 2) ∧ All32 S1 ∧
      S1.length = S.length ∧
      S1.take (hc + hc % 2) =
        (if (S.take hc).length % 2 = 1 then S.take hc ++ (S.take hc).getLast?.toList
          else S.take hc) := by
  have htl : (S.take hc).length = hc := by
    rw [List.length_take]
    omega
  rw [htl]
  unfold dupLast
  rcases Nat.mod_two_eq_zero_or_one hc with h0 | h0
  · refine ⟨S, ?_, hS, rfl, ?_⟩
    · simp [h0]
    · simp [h0]
  · obtain ⟨x, hx⟩ : ∃ x, S[hc - 1]? = some x :=
      ⟨_, List.getElem?_eq_getElem (show hc - 1 < S.length by omega)⟩
    have hx32 : x.length = 32 := hS _ (List.getElem?_mem hx)
    have hlast : (S.take hc).getLast? = some x := by
      have e1 := List.getLast?_eq_getElem? (S.take hc)
      rw [htl] at e1
      rw [e1, List.getElem?_take_of_lt (by omega)]
      exact hx
    have htk : (S.set hc x).take (hc + 1) = S.take hc ++ [x] :=
      take_succ_set S hc x (by omega)
    refine ⟨S.set hc x, ?_, hS.set _ hx32, by simp, ?_⟩
    · simp [h0, rd_slot hS hx, wr_slot hS (show hc < S.length by omega) hx32]
    · rw [h0, htk, hlast]
      simp

theorem foldLoop_spec (E : Env) (hd : Digest32 E.blkmk_sha256_impl) :
    ∀ (fuel hc : Nat) (S : List Bytes), All32 S → 1 ≤ hc → hc + 1 ≤ S.length → hc ≤ fuel →
      (merkleFold E.blkmk_sha256_impl fuel (S.take hc) = none →
        ∃ x, foldLoop E fuel hc S.flatten = some (false, x)) ∧
      (∀ root, merkleFold E.blkmk_sha256_impl fuel (S.take hc) = some root →
        ∃ S1, foldLoop E fuel hc S.flatten = some (true, S1.flatten) ∧ All32 S1 ∧
          S1.length = S.length ∧ S1[0]? = some root) := by
  intro fuel
  induction fuel with
  | zero =>
    intro hc S hS h1 hlen hfuel
    omega
  | succ fuel ih =>
    intro hc S hS h1 hlen hfuel
    have htl : (S.take hc).length = hc := by
      rw [List.length_take]
      omega
    rcases Nat.eq_or_lt_of_le h1 with hone | hgt
    · subst hone
      have hhead : (S.take 1).head? = S[0]? := by
        rw [List.head?_eq_getElem?, List.getElem?_take_of_lt (by omega)]
      simp only [merkleFold, foldLoop, htl, Nat.lt_irrefl, if_false, hhead, gt_iff_lt]
      refine ⟨fun h => ?_, fun root h => ⟨S, rfl, hS, rfl, h⟩⟩
      rw [List.getElem?_eq_getElem (by omega)] at h
      cases h
    · obtain ⟨S1, d1, d2, d3, d4⟩ := dupLast_slot hS h1 hlen
      have hgt1 : hc > 1 := hgt
      have hlt : 1 < (S.take hc).length := by omega
      simp only [merkleFold, foldLoop, hgt1, hlt, if_true, d1, ← d4]
      obtain ⟨m, hm⟩ : ∃ m, hc + hc % 2 = 2 * m := ⟨(hc + hc % 2) / 2, by omega⟩
      have hp := pairLoop_spec E hd m (2 * m) 0 S1 d2 (by omega) (by omega) (by omega)
      simp only [Nat.mul_zero, List.drop_zero, Nat.sub_zero, List.take_zero, List.nil_append] at hp
      have hdiv : 2 * m / 2 = m := by omega
      rw [hm, hdiv]
      cases h2 : foldPairs E.blkmk_sha256_impl (S1.take (2 * m)) with
      | none =>
        obtain ⟨x, hx⟩ := hp.1 h2
        rw [hx]
        exact ⟨fun _ => ⟨x, rfl⟩, fun root h => by simp at h⟩
      | some R =>
        obtain ⟨S2, e1, e2, e3, e4⟩ := hp.2 R h2
        rw [e1]
        have ih1 := ih m S2 e2 (by omega) (by omega) (by omega)
        rw [e4] at ih1
        simp only []
        refine ⟨fun h => ih1.1 h, fun root h => ?_⟩
        obtain ⟨S3, f1, f2, f3, f4⟩ := ih1.2 root h
        exact ⟨S3, f1, f2, by omega, f4⟩

theorem build_merkle_root_spec (E : Env) (hd : Digest32 E.blkmk_sha256_impl)
    (stack : Nat → Nat) (out : Bytes) (outoff : Nat) (tmpl : blktemplate_t)
    (cbtxndata : Bytes) (cbtxndatasz : Nat)
    (hcb : cbtxndatasz ≤ cbtxndata.length)
    (htx : ∀ t ∈ tmpl.txns, t.datasz ≤ t.data.length)
    (hout : outoff + 32 ≤ out.length) :
    build_merkle_root E stack out outoff tmpl cbtxndata cbtxndatasz =
      some (rootOutcome out outoff
        (merkleRoot E.blkmk_sha256_impl (cbtxndata.take cbtxndatasz)
          (tmpl.txns.map blktxn_t.bytes))) := by
  obtain ⟨S, s1, s2, s3⟩ := exists_slots (tmpl.txns.length + 1 + 1)
    (uninit stack ((tmpl.txns.length + 1 + 1) * 32)) (by simp [uninit]; omega)
  have hrd : rd cbtxndata 0 cbtxndatasz = some (cbtxndata.take cbtxndatasz) := by
    rw [rd_eq_some (by omega)]
    simp
  have hslot := dblsha256_slot E hd s2 (show 0 < S.length by omega) (cbtxndata.take cbtxndatasz)
  simp only [Nat.mul_zero] at hslot
  simp only [build_merkle_root, merkleRoot, leafHashes, hrd, ← s3]
  cases h1 : dblHash E.blkmk_sha256_impl (cbtxndata.take cbtxndatasz) with
  | none =>
    obtain ⟨x, hx⟩ := hslot.1 h1
    rw [hx]
    rfl
  | some l0 =>
    have h32 : l0.length = 32 := dblHash_length hd h1
    rw [hslot.2 l0 h1]
    have hleaf := leafLoop_spec E hd tmpl.txns 0 (S.set 0 l0) (s2.set _ h32)
      (by simp; omega) htx
    simp only []
    cases h2 : leafHashes E.blkmk_sha256_impl (tmpl.txns.map blktxn_t.bytes) with
    | none =>
      obtain ⟨x, hx⟩ := hleaf.1 h2
      rw [hx]
      rfl
    | some ls =>
      obtain ⟨S1, e1, e2, e3, e4⟩ := hleaf.2 ls h2
      rw [e1]
      simp only [List.length_set] at e3
      have hls : ls.length = tmpl.txns.length := by
        have := congrArg List.length e4
        simp [List.length_take] at this
        omega
      rw [take_succ_set S 0 l0 (by omega)] at e4
      simp only [List.take_zero, List.nil_append, Nat.zero_add] at e4
      have hfold := foldLoop_spec E hd (tmpl.txns.length + 1) (tmpl.txns.length + 1) S1 e2
        (by omega) (by omega) (by omega)
      have e5 : 1 + tmpl.txns.length = tmpl.txns.length + 1 := by omega
      rw [e5] at e4
      rw [e4] at hfold
      simp only [List.length_cons, hls]
      cases h3 : merkleFold E.blkmk_sha256_impl (tmpl.txns.length + 1) ([l0] ++ ls) with
      | none =>
        obtain ⟨x, hx⟩ := hfold.1 h3
        rw [hx]
        simp only [List.singleton_append] at h3
        rw [h3]
        rfl
      | some root =>
        obtain ⟨S2, f1, f2, f3, f4⟩ := hfold.2 root h3
        have hr32 : root.length = 32 := f2 root (List.getElem?_mem f4)
        have hroot := rd_slot f2 f4
        simp only [Nat.mul_zero] at hroot
        rw [f1]
        simp only [List.singleton_append] at h3
        simp only [hroot, h3, rootOutcome]
        rw [wr_eq_some (by omega), hr32]

/-! ## The reference fold returns a root when the hash succeeds -/

theorem dblHash_total {sha : Bytes → Option Bytes} (hok : ∀ d, sha d ≠ none) (d : Bytes) :
    ∃ h, dblHash sha d = some h := by
  unfold dblHash
  cases h1 : sha d with
  | none => exact absurd h1 (hok d)
  | some x =>
    cases h2 : sha x with
    | none => exact absurd h2 (hok x)
    | some y => exact ⟨y, by simp [h2]⟩

theorem leafHashes_total {sha : Bytes → Option Bytes} (hok : ∀ d, sha d ≠ none) :
    ∀ xs : List Bytes, ∃ ls, leafHashes sha xs = some ls ∧ ls.length = xs.length
  | [] => ⟨[], rfl, rfl⟩
  | x :: xs => by
    obtain ⟨h, hh⟩ := dblHash_total hok x
    obtain ⟨ls, e1, e2⟩ := leafHashes_total hok xs
    exact ⟨h :: ls, by simp [leafHashes, hh, e1], by simp [e2]⟩

theorem leafHashes_all32 {sha : Bytes → Option Bytes} (hd : Digest32 sha) :
    ∀ (xs ls : List Bytes), leafHashes sha xs = some ls → All32 ls
  | [], ls, h => by
    simp [leafHashes] at h
    subst h
    intro s hs
    cases hs
  | x :: xs, ls, h => by
    simp only [leafHashes] at h
    cases h1 : dblHash sha x with
    | none => simp [h1] at h
    | some y =>
      cases h2 : leafHashes sha xs with
      | none => simp [h1, h2] at h
      | some r =>
        simp [h1, h2] at h
        subst h
        intro s hs
        rcases List.mem_cons.mp hs with h3 | h3
        · rw [h3]
          exact dblHash_length hd h1
        · exact leafHashes_all32 hd xs r h2 s h3

theorem foldPairs_total {sha : Bytes → Option Bytes} (hok : ∀ d, sha d ≠ none) :
    ∀ (n : Nat) (hs : List Bytes), hs.length ≤ n →
      ∃ R, foldPairs sha hs = some R ∧ R.length = hs.length / 2
  | _, [], _ => ⟨[], rfl, rfl⟩
  | _, [_], _ => ⟨[], rfl, by simp⟩
  | 0, _ :: _ :: _, h => by simp at h
  | n + 1, a :: b :: rest, h => by
    obtain ⟨x, hx⟩ := dblHash_total hok (a ++ b)
    obtain ⟨R, e1, e2⟩ := foldPairs_total hok n rest (by simp at h; omega)
    refine ⟨x :: R, by simp [foldPairs, hx, e1], ?_⟩
    simp only [List.length_cons, e2]
    omega

theorem merkleFold_total {sha : Bytes → Option Bytes} (hok : ∀ d, sha d ≠ none) :
    ∀ (fuel : Nat) (hs : List Bytes), 1 ≤ hs.length → hs.length ≤ fuel →
      ∃ root, merkleFold sha fuel hs = some root := by
  intro fuel
  induction fuel with
  | zero =>
    intro hs h1 h2
    omega
  | succ fuel ih =>
    intro hs h1 h2
    unfold merkleFold
    by_cases hlt : 1 < hs.length
    · rw [if_pos hlt]
      obtain ⟨R, e1, e2⟩ := foldPairs_total hok _
        (if hs.length % 2 = 1 then hs ++ hs.getLast?.toList else hs) (Nat.le_refl _)
      rw [e1]
      have hlast : hs.getLast?.toList.length ≤ 1 := by
        cases hs.getLast? <;> simp
      have hR : 1 ≤ R.length ∧ R.length ≤ fuel := by
        rw [e2]
        split
        · rw [List.length_append]
          omega
        · omega
      exact ih R hR.1 hR.2
    · rw [if_neg hlt]
      cases hs with
      | nil => simp at h1
      | cons a t => exact ⟨a, rfl⟩

theorem merkleRoot_total {sha : Bytes → Option Bytes} (hok : ∀ d, sha d ≠ none)
    (coinbase : Bytes) (txs : List Bytes) : ∃ root, merkleRoot sha coinbase txs = some root := by
  obtain ⟨ls, e1, e2⟩ := leafHashes_total hok (coinbase :: txs)
  obtain ⟨root, hr⟩ := merkleFold_total hok ls.length ls (by simp [e2]) (Nat.le_refl _)
  exact ⟨root, by simp only [merkleRoot, e1, hr]⟩

theorem merkleRoot_nil (sha : Bytes → Option Bytes) (c : Bytes) :
    merkleRoot sha c [] = dblHash sha c := by
  unfold merkleRoot
  cases h : dblHash sha c with
  | none => simp [leafHashes, h]
  | some l0 => simp [leafHashes, h, merkleFold]

theorem merkleRoot_three (sha : Bytes → Option Bytes) (c x y : Bytes) :
    merkleRoot sha c [x, y] =
      (dblHash sha c).bind fun l0 => (dblHash sha x).bind fun l1 => (dblHash sha y).bind fun l2 =>
        (dblHash sha (l0 ++ l1)).bind fun a => (dblHash sha (l2 ++ l2)).bind fun b =>
          dblHash sha (a ++ b) := by
  unfold merkleRoot
  cases h0 : dblHash sha c with
  | none => simp [leafHashes, h0]
  | some l0 =>
    cases h1 : dblHash sha x with
    | none => simp [leafHashes, h0, h1]
    | some l1 =>
      cases h2 : dblHash sha y with
      | none => simp [leafHashes, h0, h1, h2]
      | some l2 =>
        cases h3 : dblHash sha (l0 ++ l1) with
        | none => simp [leafHashes, h0, h1, h2, merkleFold, foldPairs, h3]
        | some a =>
          cases h4 : dblHash sha (l2 ++ l2) with
          | none => simp [leafHashes, h0, h1, h2, merkleFold, foldPairs, h3, h4]
          | some b =>
            cases h5 : dblHash sha (a ++ b) with
            | none => simp [leafHashes, h0, h1, h2, merkleFold, foldPairs, h3, h4, h5]
            | some r => simp [leafHashes, h0, h1, h2, merkleFold, foldPairs, h3, h4, h5]

theorem foldPairs_all32 {sha : Bytes → Option Bytes} (hd : Digest32 sha) :
    ∀ (n : Nat) (hs R : List Bytes), hs.length ≤ n → foldPairs sha hs = some R → All32 R
  | _, [], R, _, h => by
    simp [foldPairs] at h
    subst h
    intro s hs
    cases hs
  | _, [_], R, _, h => by
    simp [foldPairs] at h
    subst h
    intro s hs
    cases hs
  | 0, _ :: _ :: _, _, hl, _ => by simp at hl
  | n + 1, a :: b :: rest, R, hl, h => by
    simp only [foldPairs] at h
    cases h1 : dblHash sha (a ++ b) with
    | none => simp [h1] at h
    | some y =>
      cases h2 : foldPairs sha rest with
      | none => simp [h1, h2] at h
      | some r =>
        simp [h1, h2] at h
        subst h
        intro s hs
        rcases List.mem_cons.mp hs with h3 | h3
        · rw [h3]
          exact dblHash_length hd h1
        · exact foldPairs_all32 hd n rest r (by simp at hl; omega) h2 s h3

theorem merkleFold_length {sha : Bytes → Option Bytes} (hd : Digest32 sha) :
    ∀ (fuel : Nat) (hs : List Bytes) (root : Bytes), All32 hs →
      merkleFold sha fuel hs = some root → root.length = 32 := by
  intro fuel
  induction fuel with
  | zero =>
    intro hs root h32 h
    simp only [merkleFold] at h
    exact h32 root (List.mem_of_mem_head? h)
  | succ fuel ih =>
    intro hs root h32 h
    unfold merkleFold at h
    by_cases hlt : 1 < hs.length
    · rw [if_pos hlt] at h
      cases h1 : foldPairs sha (if hs.length % 2 = 1 then hs ++ hs.getLast?.toList else hs) with
      | none => simp [h1] at h
      | some R =>
        rw [h1] at h
        exact ih R root (foldPairs_all32 hd _ _ R (Nat.le_refl _) h1) h
    · rw [if_neg hlt] at h
      exact h32 root (List.mem_of_mem_head? h)

theorem merkleRoot_length {sha : Bytes → Option Bytes} (hd : Digest32 sha)
    (coinbase : Bytes) (txs : List Bytes) (root : Bytes)
    (h : merkleRoot sha coinbase txs = some root) : root.length = 32 := by
  unfold merkleRoot at h
  cases h1 : leafHashes sha (coinbase :: txs) with
  | none => simp [h1] at h
  | some ls =>
    rw [h1] at h
    exact merkleFold_length hd _ ls root (leafHashes_all32 hd _ ls h1) h

theorem foldPairs_length (sha : Bytes → Option Bytes) :
    ∀ (n : Nat) (hs R : List Bytes), hs.length ≤ n → foldPairs sha hs = some R →
      R.length = hs.length / 2
  | _, [], R, _, h => by
    simp [foldPairs] at h
    subst h
    rfl
  | _, [_], R, _, h => by
    simp [foldPairs] at h
    subst h
    simp
  | 0, _ :: _ :: _, _, hl, _ => by simp at hl
  | n + 1, a :: b :: rest, R, hl, h => by
    simp only [foldPairs] at h
    cases h1 : dblHash sha (a ++ b) with
    | none => simp [h1] at h
    | some y =>
      cases h2 : foldPairs sha rest with
      | none => simp [h1, h2] at h
      | some r =>
        simp [h1, h2] at h
        subst h
        have := foldPairs_length sha n rest r (by simp at hl; omega) h2
        simp only [List.length_cons, this]
        omega

/-- The fuel of the reference fold is immaterial once it is at least the
number of hashes. -/
theorem merkleFold_fuel (sha : Bytes → Option Bytes) :
    ∀ (f g : Nat) (hs : List Bytes), 1 ≤ hs.length → hs.length ≤ f → hs.length ≤ g →
      merkleFold sha f hs = merkleFold sha g hs := by
  intro f
  induction f with
  | zero =>
    intro g hs h1 h2 _
    omega
  | succ f ih =>
    intro g hs h1 h2 h3
    cases g with
    | zero => omega
    | succ g =>
      unfold merkleFold
      by_cases hlt : 1 < hs.length
      · rw [if_pos hlt, if_pos hlt]
        cases h4 : foldPairs sha (if hs.length % 2 = 1 then hs ++ hs.getLast?.toList else hs) with
        | none => rfl
        | some R =>
          have hR := foldPairs_length sha _ _ R (Nat.le_refl _) h4
          have hlast : hs.getLast?.toList.length ≤ 1 := by
            cases hs.getLast? <;> simp
          have hb : 1 ≤ R.length ∧ R.length ≤ f ∧ R.length ≤ g := by
            rw [hR]
            split
            · rw [List.length_append]
              omega
            · omega
          exact ih g R hb.1 hb.2.1 hb.2.2
      · rw [if_neg hlt, if_neg hlt]

/-! ## Splicing into the coinbase script -/

theorem spliced_length {inb : Bytes} {l n : Nat} {a : Bytes} (h1 : 42 + l ≤ n)
    (h2 : n ≤ inb.length) : (spliced inb l n a).length = n + a.length := by
  simp only [spliced, List.length_append, List.length_take, List.length_drop, List.length_cons,
    List.length_nil]
  omega

theorem spliced_getElem? {inb : Bytes} {l n : Nat} {a : Bytes} (h1 : 42 + l ≤ n)
    (h2 : n ≤ inb.length) (i : Nat) :
    (spliced inb l n a)[i]? =
      if i < 41 then inb[i]?
      else if i = 41 then some (l + a.length)
      else if i < 42 + l then inb[i]?
      else if i < 42 + l + a.length then a[i - (42 + l)]?
      else if i < n + a.length then inb[i - a.length]?
      else none := by
  simp only [spliced, List.getElem?_append, List.getElem?_take, List.getElem?_drop,
    List.length_append, List.length_take, List.length_drop, List.length_cons, List.length_nil]
  split_ifs <;> first | omega | rfl | (congr 1; omega) | skip
  rename_i h
  have h0 : i - min 41 inb.length = 0 := by omega
  rw [h0]
  rfl

theorem size_sub_of_le {a b : Nat} (h : b ≤ a) (ha : a < SIZE_MOD) : size_sub a b = a - b := by
  unfold size_sub
  have hb : b < SIZE_MOD := by omega
  rw [Nat.mod_eq_of_lt ha, Nat.mod_eq_of_lt hb]
  have : a + SIZE_MOD - b = (a - b) + SIZE_MOD := by omega
  rw [this, Nat.add_mod_right, Nat.mod_eq_of_lt (by omega)]

theorem append_cb_inplace (tmpl : blktemplate_t) (a : Bytes) (l : Nat)
    (hl : tmpl.cbtxn.data[cbScriptSigLen]? = some l)
    (hn : 42 + l ≤ tmpl.cbtxn.datasz)
    (hcap : tmpl.cbtxn.datasz + a.length ≤ tmpl.cbtxn.data.length)
    (hM : tmpl.cbtxn.datasz < SIZE_MOD)
    (hla : l + a.length ≤ 100) :
    ∃ o, _blkmk_append_cb tmpl none a a.length = some (true, o) ∧
      o.length = tmpl.cbtxn.data.length ∧
      o.take (tmpl.cbtxn.datasz + a.length) = spliced tmpl.cbtxn.data l tmpl.cbtxn.datasz a ∧
      o.drop (tmpl.cbtxn.datasz + a.length) =
        tmpl.cbtxn.data.drop (tmpl.cbtxn.datasz + a.length) := by
  have hs1 : size_sub 100 a.length = 100 - a.length :=
    size_sub_of_le (by omega) (by unfold SIZE_MOD; omega)
  have hs2 : size_sub tmpl.cbtxn.datasz (42 + l) = tmpl.cbtxn.datasz - (42 + l) :=
    size_sub_of_le hn hM
  have hnot : ¬ (l > 100 - a.length) := by omega
  obtain ⟨tl, htl⟩ : ∃ tl, rd tmpl.cbtxn.data (42 + l) (tmpl.cbtxn.datasz - (42 + l)) = some tl :=
    ⟨_, rd_eq_some (by omega)⟩
  have htll := rd_length htl
  obtain ⟨o2, ho2⟩ : ∃ o2, wr tmpl.cbtxn.data (42 + l + a.length) tl = some o2 :=
    ⟨_, wr_eq_some (by omega)⟩
  have ho2l := wr_length ho2
  have hb : o2[cbScriptSigLen]? = some l := by
    rw [wr_getElem? ho2, if_neg (by unfold cbScriptSigLen; omega)]
    exact hl
  obtain ⟨o3, ho3⟩ : ∃ o3, wr o2 cbScriptSigLen [(l + a.length) % 256] = some o3 :=
    ⟨_, wr_eq_some (by simp [cbScriptSigLen]; omega)⟩
  have ho3l := wr_length ho3
  have hra : rd a 0 a.length = some a := by
    rw [rd_eq_some (by omega)]
    simp
  obtain ⟨o4, ho4⟩ : ∃ o4, wr o3 (42 + l) a = some o4 := ⟨_, wr_eq_some (by omega)⟩
  have ho4l := wr_length ho4
  have e42 : cbScriptSigLen + 1 + l = 42 + l := by
    unfold cbScriptSigLen
    omega
  refine ⟨o4, ?_, by omega, ?_, ?_⟩
  · unfold _blkmk_append_cb
    simp only [hl, hs1, hs2, hnot, if_false, e42, htl, ho2, hb, ho3, hra, ho4, Option.getD_none]
  · apply List.ext_getElem?
    intro i
    rw [spliced_getElem? hn (by omega), List.getElem?_take, wr_getElem? ho4, wr_getElem? ho3,
      wr_getElem? ho2, rd_getElem? htl]
    simp only [cbScriptSigLen, List.length_cons, List.length_nil, htll]
    have hmod : (l + a.length) % 256 = l + a.length := Nat.mod_eq_of_lt (by omega)
    split_ifs <;> first | omega | rfl | (congr 1; omega) | skip
    rename_i h
    subst h
    simp [hmod]
  · apply List.ext_getElem?
    intro i
    rw [List.getElem?_drop, List.getElem?_drop, wr_getElem? ho4, wr_getElem? ho3,
      wr_getElem? ho2]
    simp only [cbScriptSigLen, List.length_cons, List.length_nil, htll]
    rw [if_neg (by omega), if_neg (by omega), if_neg (by omega)]


theorem append_cb_distinct (tmpl : blktemplate_t) (out a : Bytes) (l : Nat)
    (hl : tmpl.cbtxn.data[cbScriptSigLen]? = some l)
    (hn : 42 + l < tmpl.cbtxn.datasz)
    (hsz : tmpl.cbtxn.datasz ≤ tmpl.cbtxn.data.length)
    (hM : tmpl.cbtxn.datasz < SIZE_MOD)
    (hla : l + a.length ≤ 100)
    (hcap : tmpl.cbtxn.datasz + a.length ≤ out.length) :
    ∃ o, _blkmk_append_cb tmpl (some out) a a.length = some (true, o) ∧
      o.length = out.length ∧
      o.take (tmpl.cbtxn.datasz + a.length) = spliced tmpl.cbtxn.data l tmpl.cbtxn.datasz a ∧
      o.drop (tmpl.cbtxn.datasz + a.length) = out.drop (tmpl.cbtxn.datasz + a.length) := by
  have hs1 : size_sub 100 a.length = 100 - a.length :=
    size_sub_of_le (by omega) (by unfold SIZE_MOD; omega)
  have hs2 : size_sub tmpl.cbtxn.datasz (42 + l) = tmpl.cbtxn.datasz - (42 + l) :=
    size_sub_of_le (by omega) hM
  have hnot : ¬ (l > 100 - a.length) := by omega
  obtain ⟨hd, hhd⟩ : ∃ hd, rd tmpl.cbtxn.data 0 (42 + l + 1) = some hd :=
    ⟨_, rd_eq_some (by omega)⟩
  have hhdl := rd_length hhd
  obtain ⟨o1, ho1⟩ : ∃ o1, wr out 0 hd = some o1 := ⟨_, wr_eq_some (by omega)⟩
  have ho1l := wr_length ho1
  obtain ⟨tl, htl⟩ : ∃ tl, rd tmpl.cbtxn.data (42 + l) (tmpl.cbtxn.datasz - (42 + l)) = some tl :=
    ⟨_, rd_eq_some (by omega)⟩
  have htll := rd_length htl
  obtain ⟨o2, ho2⟩ : ∃ o2, wr o1 (42 + l + a.length) tl = some o2 :=
    ⟨_, wr_eq_some (by omega)⟩
  have ho2l := wr_length ho2
  have hb : o2[cbScriptSigLen]? = some l := by
    rw [wr_getElem? ho2, if_neg (by unfold cbScriptSigLen; omega), wr_getElem? ho1,
      if_pos (by unfold cbScriptSigLen; omega), rd_getElem? hhd,
      if_pos (by unfold cbScriptSigLen; omega)]
    simpa using hl
  obtain ⟨o3, ho3⟩ : ∃ o3, wr o2 cbScriptSigLen [(l + a.length) % 256] = some o3 :=
    ⟨_, wr_eq_some (by simp [cbScriptSigLen]; omega)⟩
  have ho3l := wr_length ho3
  have hra : rd a 0 a.length = some a := by
    rw [rd_eq_some (by omega)]
    simp
  obtain ⟨o4, ho4⟩ : ∃ o4, wr o3 (42 + l) a = some o4 := ⟨_, wr_eq_some (by omega)⟩
  have ho4l := wr_length ho4
  have e42 : cbScriptSigLen + 1 + l = 42 + l := by
    unfold cbScriptSigLen
    omega
  refine ⟨o4, ?_, by omega, ?_, ?_⟩
  · unfold _blkmk_append_cb
    simp only [hl, hs1, hs2, hnot, if_false, e42, hhd, ho1, htl, ho2, hb, ho3, hra, ho4]
  · apply List.ext_getElem?
    intro i
    rw [spliced_getElem? (by omega) hsz, List.getElem?_take, wr_getElem? ho4, wr_getElem? ho3,
      wr_getElem? ho2, rd_getElem? htl, wr_getElem? ho1, rd_getElem? hhd]
    simp only [cbScriptSigLen, List.length_cons, List.length_nil, htll, hhdl]
    have hmod : (l + a.length) % 256 = l + a.length := Nat.mod_eq_of_lt (by omega)
    split_ifs <;> first | omega | rfl | (congr 1; omega) | skip
    rename_i h
    subst h
    simp [hmod]
  · apply List.ext_getElem?
    intro i
    rw [List.getElem?_drop, List.getElem?_drop, wr_getElem? ho4, wr_getElem? ho3,
      wr_getElem? ho2, wr_getElem? ho1]
    simp only [cbScriptSigLen, List.length_cons, List.length_nil, htll, hhdl]
    rw [if_neg (by omega), if_neg (by omega), if_neg (by omega), if_neg (by omega)]

theorem append_cb_reject (tmpl : blktemplate_t) (vout : Option Bytes) (a : Bytes) (s l : Nat)
    (hl : tmpl.cbtxn.data[cbScriptSigLen]? = some l) (hs : s ≤ 100) (hla : 100 < l + s) :
    _blkmk_append_cb tmpl vout a s = some (false, vout.getD tmpl.cbtxn.data) := by
  have hs1 : size_sub 100 s = 100 - s :=
    size_sub_of_le (by omega) (by unfold SIZE_MOD; omega)
  have hgt : l > 100 - s := by omega
  unfold _blkmk_append_cb
  simp only [hl, hs1, hgt, if_true]

/-! ## The header assembled by `blkmk_get_data` -/


theorem wr_readback {m src o : Bytes} {off : Nat} (h : wr m off src = some o) :
    (o.drop off).take src.length = src := by
  have hl := wr_length h
  have hb : off + src.length ≤ m.length := by
    unfold wr at h
    by_cases hle : off + src.length ≤ m.length
    · exact hle
    · rw [if_neg hle] at h
      cases h
  apply List.ext_getElem?
  intro i
  rw [List.getElem?_take, List.getElem?_drop, wr_getElem? h]
  by_cases hi : i < src.length
  · rw [if_pos hi, if_pos (by omega)]
    congr 1
    omega
  · rw [if_neg hi, List.getElem?_eq_none (by omega)]

theorem wr_frame {m src o : Bytes} {off : Nat} (h : wr m off src = some o) (k n : Nat)
    (hk : k + n ≤ off ∨ off + src.length ≤ k) :
    (o.drop k).take n = (m.drop k).take n := by
  apply List.ext_getElem?
  intro i
  rw [List.getElem?_take, List.getElem?_take, List.getElem?_drop, List.getElem?_drop,
    wr_getElem? h]
  by_cases hi : i < n
  · rw [if_pos hi, if_pos hi, if_neg (by omega)]
  · rw [if_neg hi, if_neg hi]

theorem wr_frame_drop {m src o : Bytes} {off : Nat} (h : wr m off src = some o) (k : Nat)
    (hk : off + src.length ≤ k) : o.drop k = m.drop k := by
  apply List.ext_getElem?
  intro i
  rw [List.getElem?_drop, List.getElem?_drop, wr_getElem? h, if_neg (by omega)]

theorem wr_ok {m src o : Bytes} {off : Nat} (h : wr m off src = some o) :
    off + src.length ≤ m.length := by
  unfold wr at h
  by_cases hle : off + src.length ≤ m.length
  · exact hle
  · rw [if_neg hle] at h
    cases h

theorem append_cb_out_length {tmpl : blktemplate_t} {out a : Bytes} {s : Nat} {b : Bool}
    {o : Bytes} (h : _blkmk_append_cb tmpl (some out) a s = some (b, o)) :
    o.length = out.length := by
  unfold _blkmk_append_cb at h
  simp only [Option.getD_some] at h
  split at h
  · cases h
  · split at h
    · cases h
      rfl
    · split at h
      · cases h
      · rename_i o2 hmoved
        have h2 : o2.length = out.length := by
          split at hmoved
          · cases hmoved
          · split at hmoved
            · cases hmoved
            · split at hmoved
              · cases hmoved
              · rename_i o1 ho1 _ _ _
                rw [wr_length hmoved, wr_length ho1]
        split at h
        · cases h
        · split at h
          · cases h
          · split at h
            · cases h
            · split at h
              · cases h
              · rename_i o3 ho3 _ _ _ _ o4 ho4
                cases h
                rw [wr_length ho4, wr_length ho3, h2]

theorem extranonce_cbsz_le {E : Env} {tmpl : blktemplate_t} {vout cb : Bytes} {w cbsz : Nat}
    (h : _blkmk_extranonce E tmpl vout w 0 = some (true, cb, cbsz))
    (hv : vout.length = size_add tmpl.cbtxn.datasz 4) : cbsz ≤ cb.length := by
  unfold _blkmk_extranonce at h
  by_cases hw : w = 0
  · rw [if_pos hw] at h
    split at h
    · cases h
    · rename_i d hd
      split at h
      · cases h
      · rename_i o ho
        cases h
        have h1 := rd_length hd
        have h2 := wr_ok ho
        have h3 := wr_length ho
        have h4 : size_add 0 tmpl.cbtxn.datasz ≤ tmpl.cbtxn.datasz := by
          unfold size_add
          rw [Nat.zero_add]
          exact Nat.mod_le _ _
        omega
  · rw [if_neg hw] at h
    split at h
    · cases h
    · cases h
    · rename_i o ho
      cases h
      have h1 := append_cb_out_length ho
      have h2 : size_add 0 (size_add tmpl.cbtxn.datasz 4) = size_add tmpl.cbtxn.datasz 4 := by
        unfold size_add
        rw [Nat.zero_add, Nat.mod_mod]
      omega

theorem extranonce_congr (E : Env) (t1 t2 : blktemplate_t) (h : t1.cbtxn = t2.cbtxn)
    (vout : Bytes) (w offs : Nat) :
    _blkmk_extranonce E t1 vout w offs = _blkmk_extranonce E t2 vout w offs := by
  unfold _blkmk_extranonce _blkmk_append_cb
  rw [h]

theorem get_data_live (E : Env) (hd : Digest32 E.blkmk_sha256_impl) (scratch stack : Nat → Nat)
    (tmpl : blktemplate_t) (buf : Bytes) (bufsz : Nat) (usetime : Int) (out_dataid : Nat)
    (htime : blkmk_time_left tmpl usetime ≠ 0) (hwork : blkmk_work_left E tmpl ≠ 0)
    (hbufsz : 76 ≤ bufsz) (hbuf : bufsz ≤ buf.length)
    (hprev : tmpl.prevblk.length = 32) (hbits : tmpl.diffbits.length = 4)
    (hmr : tmpl._mrklroot.length = 32)
    (htx : ∀ t ∈ tmpl.txns, t.datasz ≤ t.data.length)
    (cb : Bytes) (cbsz : Nat)
    (hvar : _blkmk_extranonce E tmpl (uninit scratch (size_add tmpl.cbtxn.datasz 4))
      tmpl.next_dataid 0 = some (true, cb, cbsz)) :
    (merkleRoot E.blkmk_sha256_impl (cb.take cbsz) (tmpl.txns.map blktxn_t.bytes) = none →
      ∃ b, blkmk_get_data E scratch stack tmpl buf bufsz usetime out_dataid =
        some ⟨0, { tmpl with next_dataid := (tmpl.next_dataid + 1) % UINT_MOD }, b,
          tmpl.next_dataid⟩) ∧
    (∀ root, merkleRoot E.blkmk_sha256_impl (cb.take cbsz) (tmpl.txns.map blktxn_t.bytes) =
        some root →
      ∃ b, blkmk_get_data E scratch stack tmpl buf bufsz usetime out_dataid =
        some ⟨76, { tmpl with next_dataid := (tmpl.next_dataid + 1) % UINT_MOD,
                              _mrklroot := root }, b, tmpl.next_dataid⟩ ∧
        HeaderOk tmpl buf b root) := by
  have hcbsz : cbsz ≤ cb.length := extranonce_cbsz_le hvar (by simp [uninit])
  have hlive : (!(blkmk_time_left tmpl usetime != 0 && blkmk_work_left E tmpl != 0)) = false := by
    simp [htime, hwork]
  have hnot : ¬ bufsz < 76 := by omega
  obtain ⟨b1, hb1⟩ : ∃ b1, my_htole32 buf 0 tmpl.version = some b1 :=
    ⟨_, by unfold my_htole32; exact wr_eq_some (by simp; omega)⟩
  have hb1l := wr_length hb1
  have hpb : rd tmpl.prevblk 0 32 = some tmpl.prevblk := by
    rw [rd_eq_some (by omega), ← hprev]
    simp
  obtain ⟨b2, hb2⟩ : ∃ b2, wr b1 4 tmpl.prevblk = some b2 := ⟨_, wr_eq_some (by omega)⟩
  have hb2l := wr_length hb2
  have hvar1 : _blkmk_extranonce E { tmpl with next_dataid := (tmpl.next_dataid + 1) % UINT_MOD }
      (uninit scratch (size_add tmpl.cbtxn.datasz 4)) tmpl.next_dataid 0 = some (true, cb, cbsz) := by
    exact (extranonce_congr E _ tmpl rfl _ _ _).trans hvar
  have hspec := build_merkle_root_spec E hd stack b2 36
    { tmpl with next_dataid := (tmpl.next_dataid + 1) % UINT_MOD } cb cbsz hcbsz htx (by omega)
  simp only [] at hspec
  constructor
  · intro hnone
    refine ⟨b2, ?_⟩
    rw [hnone] at hspec
    unfold blkmk_get_data
    simp only [hlive, hnot, if_false, hb1, hpb, hb2, hvar1, hspec, rootOutcome,
      Bool.false_eq_true]
  · intro root hroot
    have hr32 : root.length = 32 := merkleRoot_length hd _ _ root hroot
    rw [hroot] at hspec
    obtain ⟨b3, hb3⟩ : ∃ b3, wr b2 36 root = some b3 := ⟨_, wr_eq_some (by omega)⟩
    have hb3e : b2.take 36 ++ root ++ b2.drop (36 + 32) = b3 := by
      have := @wr_eq_some b2 root 36 (by omega)
      rw [hr32, hb3] at this
      exact (Option.some.inj this).symm
    have hb3l := wr_length hb3
    obtain ⟨b4, hb4⟩ : ∃ b4, my_htole32 b3 68
        ((if tmpl.curtime + (usetime - tmpl._time_rcvd) > tmpl.maxtime then tmpl.maxtime
          else tmpl.curtime + (usetime - tmpl._time_rcvd)) % 2 ^ 32).toNat = some b4 :=
      ⟨_, by unfold my_htole32; exact wr_eq_some (by simp; omega)⟩
    have hb4l := wr_length hb4
    have hdb : rd tmpl.diffbits 0 4 = some tmpl.diffbits := by
      rw [rd_eq_some (by omega), ← hbits]
      simp
    obtain ⟨b5, hb5⟩ : ∃ b5, wr b4 72 tmpl.diffbits = some b5 := ⟨_, wr_eq_some (by omega)⟩
    have hb5l := wr_length hb5
    have hroot5 : (b5.drop 36).take 32 = root := by
      rw [wr_frame hb5 36 32 (by omega), wr_frame hb4 36 32 (by simp), ← hr32]
      exact wr_readback hb3
    have hrd5 : rd b5 36 32 = some root := by
      rw [rd_eq_some (by omega), hroot5]
    have hmr5 : wr tmpl._mrklroot 0 root = some root := by
      rw [wr_eq_some (by omega), hr32, ← hmr]
      simp
    refine ⟨b5, ?_, by omega, ?_, ?_, hroot5, ?_, ?_⟩
    · unfold blkmk_get_data
      simp only [hlive, hnot, if_false, hb1, hpb, hb2, hvar1, hspec, rootOutcome, hb3e, hb4, hdb,
        hb5, hrd5, hmr5, Bool.false_eq_true]
    · have hb1w : wr buf 0 [(tmpl.version >>> 0) % 256, (tmpl.version >>> 8) % 256,
          (tmpl.version >>> 16) % 256, (tmpl.version >>> 24) % 256] = some b1 := hb1
      have h0 : b5.take 4 = (b5.drop 0).take 4 := by simp
      rw [h0, wr_frame hb5 0 4 (by omega), wr_frame hb4 0 4 (by simp), wr_frame hb3 0 4 (by omega),
        wr_frame hb2 0 4 (by omega)]
      have := wr_readback hb1w
      simp only [List.length_cons, List.length_nil] at this
      rw [this]
      simp only [Nat.shiftRight_eq_div_pow, Nat.pow_zero, Nat.div_one]
    · rw [wr_frame hb5 4 32 (by omega), wr_frame hb4 4 32 (by simp), wr_frame hb3 4 32 (by omega),
        ← hprev]
      exact wr_readback hb2
    · rw [← hbits]
      exact wr_readback hb5
    · have hb1w : wr buf 0 [(tmpl.version >>> 0) % 256, (tmpl.version >>> 8) % 256,
          (tmpl.version >>> 16) % 256, (tmpl.version >>> 24) % 256] = some b1 := hb1
      rw [wr_frame_drop hb5 76 (by omega), wr_frame_drop hb4 76 (by simp),
        wr_frame_drop hb3 76 (by omega), wr_frame_drop hb2 76 (by omega),
        wr_frame_drop hb1w 76 (by simp)]

/-! ## Appending to the coinbase of a template -/


theorem to_ssize_small {a : Nat} (h : a < 2 ^ 63) : to_ssize a = (a : Int) := by
  unfold to_ssize SIZE_MOD
  have h1 : a % 2 ^ 64 = a := Nat.mod_eq_of_lt (by omega)
  rw [h1, if_pos h]

theorem availsz_eq {l : Nat} (h : l ≤ 96) : size_sub (size_sub 100 4) l = 96 - l := by
  have h1 : size_sub 100 4 = 96 := by
    rw [size_sub_of_le (by omega) (by unfold SIZE_MOD; omega)]
  rw [h1, size_sub_of_le h (by unfold SIZE_MOD; omega)]

theorem realloc_length (data : Bytes) (newsz : Nat) (junk : Nat → Nat) :
    (realloc data newsz junk).length = newsz := by
  simp only [realloc, uninit, List.length_append, List.length_take, List.length_map,
    List.length_range]
  omega

theorem realloc_getElem? (data : Bytes) (newsz : Nat) (junk : Nat → Nat) (i : Nat)
    (h1 : i < newsz) (h2 : i < data.length) : (realloc data newsz junk)[i]? = data[i]? := by
  unfold realloc
  rw [List.getElem?_append_left (by rw [List.length_take]; omega), List.getElem?_take_of_lt h1]

theorem spliced_congr {d1 d2 : Bytes} {l n : Nat} (a : Bytes) (h1 : 42 + l ≤ n)
    (hd1 : n ≤ d1.length) (hd2 : n ≤ d2.length) (h : ∀ i, i < n → d1[i]? = d2[i]?) :
    spliced d1 l n a = spliced d2 l n a := by
  apply List.ext_getElem?
  intro i
  rw [spliced_getElem? h1 hd1, spliced_getElem? h1 hd2]
  split_ifs <;> first | rfl | (apply h; omega)

theorem append_safe_ok (E : Env) (tmpl : blktemplate_t) (a : Bytes) (junk : Nat → Nat) (l : Nat)
    (hmut : cbMutable E tmpl = true)
    (hl : tmpl.cbtxn.data[cbScriptSigLen]? = some l)
    (hla : l + a.length ≤ 96)
    (hn : 42 + l ≤ tmpl.cbtxn.datasz)
    (hsz : tmpl.cbtxn.datasz ≤ tmpl.cbtxn.data.length)
    (hM : tmpl.cbtxn.datasz + a.length < SIZE_MOD) :
    blkmk_append_coinbase_safe E tmpl a a.length (some junk) =
      some (((96 - l : Nat) : Int),
        { tmpl with cbtxn := ⟨spliced tmpl.cbtxn.data l tmpl.cbtxn.datasz a,
            tmpl.cbtxn.datasz + a.length⟩ }) := by
  have hav := availsz_eq (show l ≤ 96 by omega)
  have hnot : ¬ (a.length > 96 - l) := by omega
  have hadd : size_add tmpl.cbtxn.datasz a.length = tmpl.cbtxn.datasz + a.length := by
    unfold size_add
    exact Nat.mod_eq_of_lt hM
  have hlen := realloc_length tmpl.cbtxn.data (tmpl.cbtxn.datasz + a.length) junk
  have hl1 : (realloc tmpl.cbtxn.data (tmpl.cbtxn.datasz + a.length) junk)[cbScriptSigLen]? =
      some l := by
    rw [realloc_getElem? _ _ _ _ (by unfold cbScriptSigLen; omega)
      (by unfold cbScriptSigLen; omega)]
    exact hl
  obtain ⟨o, h1, h2, h3, _⟩ := append_cb_inplace
    { tmpl with cbtxn := { tmpl.cbtxn with
        data := realloc tmpl.cbtxn.data (tmpl.cbtxn.datasz + a.length) junk } }
    a l hl1 hn (by simp only [hlen]; omega) (show tmpl.cbtxn.datasz < SIZE_MOD by omega)
    (by omega)
  simp only [] at h1 h2 h3
  rw [hlen] at h2
  have ho : o = spliced tmpl.cbtxn.data l tmpl.cbtxn.datasz a := by
    rw [List.take_of_length_le (by omega)] at h3
    rw [h3]
    apply spliced_congr a hn (by omega) hsz
    intro i hi
    exact realloc_getElem? _ _ _ _ (by omega) (by omega)
  unfold blkmk_append_coinbase_safe
  simp only [hmut, Bool.not_true, Bool.false_eq_true, if_false, hl, hav, hnot, hadd, h1, ho,
    to_ssize_small (show 96 - l < 2 ^ 63 by omega)]

theorem append_safe_full (E : Env) (tmpl : blktemplate_t) (a : Bytes) (heap : Option (Nat → Nat))
    (l : Nat) (hmut : cbMutable E tmpl = true)
    (hl : tmpl.cbtxn.data[cbScriptSigLen]? = some l) (hl96 : l ≤ 96)
    (hla : 96 - l < a.length) :
    blkmk_append_coinbase_safe E tmpl a a.length heap = some (((96 - l : Nat) : Int), tmpl) := by
  have hav := availsz_eq hl96
  have hgt : a.length > 96 - l := hla
  unfold blkmk_append_coinbase_safe
  simp only [hmut, Bool.not_true, Bool.false_eq_true, if_false, hl, hav, hgt, if_true,
    to_ssize_small (show 96 - l < 2 ^ 63 by omega)]

theorem appendAll_spec (E : Env) :
    ∀ (calls : List (Bytes × (Nat → Nat))) (tmpl : blktemplate_t) (l : Nat),
      cbMutable E tmpl = true → tmpl.cbtxn.data[cbScriptSigLen]? = some l →
      l + (calls.map fun c => c.1.length).sum ≤ 96 →
      42 + l ≤ tmpl.cbtxn.datasz → tmpl.cbtxn.datasz ≤ tmpl.cbtxn.data.length →
      tmpl.cbtxn.datasz + (calls.map fun c => c.1.length).sum < SIZE_MOD →
      ∃ tmpl1, appendAll E tmpl calls =
          some (expectedCalls (96 - l) tmpl.cbtxn.datasz (calls.map fun c => c.1.length), tmpl1) ∧
        cbMutable E tmpl1 = true ∧
        tmpl1.cbtxn.data[cbScriptSigLen]? = some (l + (calls.map fun c => c.1.length).sum) ∧
        tmpl1.cbtxn.datasz = tmpl.cbtxn.datasz + (calls.map fun c => c.1.length).sum
  | [], tmpl, l, hmut, hl, _, _, _, _ => ⟨tmpl, rfl, hmut, by simpa using hl, by simp⟩
  | (a, junk) :: rest, tmpl, l, hmut, hl, hsum, hn, hsz, hM => by
    simp only [List.map_cons, List.sum_cons] at hsum hM
    have h1 := append_safe_ok E tmpl a junk l hmut hl (by omega) hn hsz (by omega)
    have hlen : (spliced tmpl.cbtxn.data l tmpl.cbtxn.datasz a).length =
        tmpl.cbtxn.datasz + a.length := spliced_length hn hsz
    have hl1 : (spliced tmpl.cbtxn.data l tmpl.cbtxn.datasz a)[cbScriptSigLen]? =
        some (l + a.length) := by
      rw [spliced_getElem? hn hsz]
      simp [cbScriptSigLen]
    obtain ⟨tmpl2, e1, e2, e3, e4⟩ := appendAll_spec E rest
      { tmpl with cbtxn := ⟨spliced tmpl.cbtxn.data l tmpl.cbtxn.datasz a,
          tmpl.cbtxn.datasz + a.length⟩ }
      (l + a.length) hmut hl1 (by omega) (show 42 + (l + a.length) ≤ tmpl.cbtxn.datasz + a.length
        by omega) (by simp only [hlen]; omega)
      (show tmpl.cbtxn.datasz + a.length + (rest.map fun c => c.1.length).sum < SIZE_MOD
        by omega)
    simp only [] at e1 e3 e4
    refine ⟨tmpl2, ?_, e2, ?_, ?_⟩
    · simp only [appendAll, h1, e1, List.map_cons, expectedCalls]
      have e5 : 96 - l - a.length = 96 - (l + a.length) := by omega
      rw [e5]
    · rw [e3]
      simp only [List.map_cons, List.sum_cons]
      congr 1
      omega
    · rw [e4]
      simp only [List.map_cons, List.sum_cons]
      omega

/-! ## Every outcome of `blkmk_get_data` -/


theorem get_data_cases (E : Env) (scratch stack : Nat → Nat) (tmpl : blktemplate_t)
    (buf : Bytes) (bufsz : Nat) (usetime : Int) (out_dataid : Nat) (r : GetData)
    (h : blkmk_get_data E scratch stack tmpl buf bufsz usetime out_dataid = some r) :
    (r = ⟨0, tmpl, buf, out_dataid⟩ ∧
      (blkmk_time_left tmpl usetime = 0 ∨ blkmk_work_left E tmpl = 0)) ∨
    (r = ⟨76, tmpl, buf, out_dataid⟩ ∧ bufsz < 76 ∧
      blkmk_time_left tmpl usetime ≠ 0 ∧ blkmk_work_left E tmpl ≠ 0) ∨
    (76 ≤ bufsz ∧ blkmk_time_left tmpl usetime ≠ 0 ∧ blkmk_work_left E tmpl ≠ 0 ∧
      r.out_dataid = tmpl.next_dataid ∧ (r.ret = 0 ∨ r.ret = 76) ∧
      ∃ mr, r.tmpl = { tmpl with next_dataid := (tmpl.next_dataid + 1) % UINT_MOD,
                                 _mrklroot := mr }) := by
  unfold blkmk_get_data at h
  by_cases hlive : (!(blkmk_time_left tmpl usetime != 0 && blkmk_work_left E tmpl != 0)) = true
  · rw [if_pos hlive] at h
    left
    refine ⟨(Option.some.inj h).symm, ?_⟩
    simp only [Bool.not_eq_true', Bool.and_eq_false_iff, bne_eq_false_iff_eq] at hlive
    exact hlive
  · rw [if_neg hlive] at h
    have hl2 : blkmk_time_left tmpl usetime ≠ 0 ∧ blkmk_work_left E tmpl ≠ 0 := by
      simp only [Bool.not_eq_true', Bool.not_eq_false, Bool.and_eq_true, bne_iff_ne] at hlive
      exact hlive
    by_cases hsz : bufsz < 76
    · rw [if_pos hsz] at h
      right
      left
      exact ⟨(Option.some.inj h).symm, hsz, hl2.1, hl2.2⟩
    · rw [if_neg hsz] at h
      right
      right
      refine ⟨by omega, hl2.1, hl2.2, ?_⟩
      split at h
      · cases h
      split at h
      · cases h
      split at h
      · cases h
      simp only [] at h
      split at h
      · cases h
      · cases h
        exact ⟨rfl, Or.inl rfl, ⟨_, rfl⟩⟩
      split at h
      · cases h
      · cases h
        exact ⟨rfl, Or.inl rfl, ⟨_, rfl⟩⟩
      repeat' split at h
      all_goals first
        | (cases h; done)
        | (cases h; exact ⟨rfl, Or.inr rfl, ⟨_, rfl⟩⟩)

/-- On a template that permits coinbase append or set, a call of
`blkmk_get_data` either leaves the template alone or consumes exactly one
identifier: it reports `next_dataid`, the counter is one larger as an integer
(it does not wrap) and `blkmk_work_left` is one smaller. -/
theorem get_data_consumes_mutable (E : Env) (scratch stack : Nat → Nat) (tmpl : blktemplate_t)
    (buf : Bytes) (bufsz : Nat) (usetime : Int) (out_dataid : Nat) (r : GetData)
    (hmut : cbMutable E tmpl = true)
    (h : blkmk_get_data E scratch stack tmpl buf bufsz usetime out_dataid = some r) :
    (r.tmpl = tmpl ∧ r.buf = buf ∧ r.out_dataid = out_dataid) ∨
    (r.out_dataid = tmpl.next_dataid ∧ r.tmpl.next_dataid = tmpl.next_dataid + 1 ∧
      tmpl.next_dataid < UINT_MAX ∧
      blkmk_work_left E r.tmpl + 1 = blkmk_work_left E tmpl) := by
  rcases get_data_cases E scratch stack tmpl buf bufsz usetime out_dataid r h with
    ⟨h1, _⟩ | ⟨h1, _⟩ | ⟨_, _, hw, h2, _, mr, h3⟩
  · left
    rw [h1]
    exact ⟨rfl, rfl, rfl⟩
  · left
    rw [h1]
    exact ⟨rfl, rfl, rfl⟩
  · right
    have hv : tmpl.version ≠ 0 := by
      intro hv
      apply hw
      simp [blkmk_work_left, hv]
    have hwl : blkmk_work_left E tmpl = UINT_MAX - tmpl.next_dataid := by
      simp [blkmk_work_left, hv, hmut]
    have hlt : tmpl.next_dataid < UINT_MAX := by
      rw [hwl] at hw
      omega
    have hmut1 : cbMutable E r.tmpl = true := by
      rw [h3]
      exact hmut
    have hstep : (tmpl.next_dataid + 1) % UINT_MOD = tmpl.next_dataid + 1 := by
      unfold UINT_MAX at hlt
      unfold UINT_MOD
      omega
    have hn : r.tmpl.next_dataid = tmpl.next_dataid + 1 := by
      rw [h3]
      exact hstep
    have hv1 : r.tmpl.version ≠ 0 := by
      rw [h3]
      exact hv
    refine ⟨h2, hn, hlt, ?_⟩
    rw [hwl]
    simp only [blkmk_work_left, hv1, hmut1, if_false, Bool.not_true, Bool.false_eq_true, hn]
    omega

/-! ## The mutation flags and the header time -/

theorem lor_eq_zero (x y : Nat) : x ||| y = 0 ↔ x = 0 ∧ y = 0 := by
  constructor
  · intro h
    have hb : ∀ i, x.testBit i = false ∧ y.testBit i = false := by
      intro i
      have := congrArg (fun n => n.testBit i) h
      simpa [Nat.testBit_or] using this
    constructor
    · apply Nat.eq_of_testBit_eq
      intro i
      simp [(hb i).1]
    · apply Nat.eq_of_testBit_eq
      intro i
      simp [(hb i).2]
  · rintro ⟨rfl, rfl⟩
    simp

/-- The test of the two flags together fails exactly when the bitmask has
neither flag. -/
theorem cbMutable_eq_false (E : Env) (tmpl : blktemplate_t) :
    cbMutable E tmpl = false ↔
      tmpl.mutations &&& E.BMM_CBAPPEND = 0 ∧ tmpl.mutations &&& E.BMM_CBSET = 0 := by
  unfold cbMutable
  rw [Nat.and_or_distrib_left, bne_eq_false_iff_eq, lor_eq_zero]

theorem get_data_time_bytes (E : Env) (scratch stack : Nat → Nat) (tmpl : blktemplate_t)
    (buf : Bytes) (bufsz : Nat) (usetime : Int) (out_dataid : Nat) (r : GetData)
    (h : blkmk_get_data E scratch stack tmpl buf bufsz usetime out_dataid = some r)
    (hret : r.ret = 76) (hsz : 76 ≤ bufsz) :
    (r.buf.drop 68).take 4 =
      le32 ((if tmpl.curtime + (usetime - tmpl._time_rcvd) > tmpl.maxtime then tmpl.maxtime
        else tmpl.curtime + (usetime - tmpl._time_rcvd)) % 2 ^ 32).toNat := by
  unfold blkmk_get_data at h
  split at h
  · cases h
    cases hret
  rw [if_neg (by omega)] at h
  split at h
  · cases h
  split at h
  · cases h
  split at h
  · cases h
  simp only [] at h
  split at h
  · cases h
  · cases h
    cases hret
  split at h
  · cases h
  · cases h
    cases hret
  split at h
  · cases h
  rename_i b4 hb4
  split at h
  · cases h
  split at h
  · cases h
  rename_i b5 hb5
  split at h
  · cases h
  split at h
  · cases h
  cases h
  simp only []
  rw [wr_frame hb5 68 4 (by omega)]
  have := wr_readback hb4
  simp only [List.length_cons, List.length_nil] at this
  rw [this]
  simp only [le32, Nat.shiftRight_eq_div_pow, Nat.pow_zero, Nat.div_one]

theorem le32_decode (m : Nat) (h : m < 2 ^ 32) :
    ∀ b0 b1 b2 b3, le32 m = [b0, b1, b2, b3] →
      b0 + 256 * b1 + 65536 * b2 + 16777216 * b3 = m := by
  intro b0 b1 b2 b3 hb
  simp only [le32, List.cons.injEq, and_true] at hb
  obtain ⟨h0, h1, h2, h3⟩ := hb
  subst h0 h1 h2 h3
  omega

/-! ## The guards of the append routines and the coinbase variants -/

/-- For an append length of at most 100 the guard of `_blkmk_append_cb` is
exact: the call succeeds only when the script length plus the append length
is at most 100. -/
theorem append_cb_success_le (tmpl : blktemplate_t) (vout : Option Bytes) (a : Bytes)
    (s l : Nat) (o : Bytes) (hl : tmpl.cbtxn.data[cbScriptSigLen]? = some l) (hs : s ≤ 100)
    (h : _blkmk_append_cb tmpl vout a s = some (true, o)) : l + s ≤ 100 := by
  rcases Nat.lt_or_ge 100 (l + s) with hgt | hle
  · rw [append_cb_reject tmpl vout a s l hl hs hgt] at h
    cases h
  · exact hle

/-- When the append has at most 100 bytes, or the script at most 96,
`blkmk_append_coinbase_safe` keeps the layout of the coinbase whatever the
outcome: the script length byte stays at most 100 and the recorded length
moves with it. -/
theorem append_safe_layout (E : Env) (tmpl : blktemplate_t) (a : Bytes)
    (heap : Option (Nat → Nat)) (l : Nat)
    (hl : tmpl.cbtxn.data[cbScriptSigLen]? = some l) (hl100 : l ≤ 100)
    (hn : 42 + l ≤ tmpl.cbtxn.datasz)
    (hsz : tmpl.cbtxn.datasz ≤ tmpl.cbtxn.data.length)
    (hM : tmpl.cbtxn.datasz + 100 < SIZE_MOD)
    (hs0 : a.length ≤ 100 ∨ l ≤ 96) :
    ∃ ret tmpl1 l1, blkmk_append_coinbase_safe E tmpl a a.length heap = some (ret, tmpl1) ∧
      tmpl1.cbtxn.data[cbScriptSigLen]? = some l1 ∧ l1 ≤ 100 ∧
      tmpl1.cbtxn.datasz + l = tmpl.cbtxn.datasz + l1 ∧
      42 + l1 ≤ tmpl1.cbtxn.datasz ∧ tmpl1.cbtxn.datasz ≤ tmpl1.cbtxn.data.length := by
  unfold blkmk_append_coinbase_safe
  cases hmut : cbMutable E tmpl with
  | false =>
    simp only [Bool.not_false, if_true]
    exact ⟨_, _, l, rfl, hl, hl100, rfl, hn, hsz⟩
  | true =>
    simp only [Bool.not_true, Bool.false_eq_true, if_false, hl]
    by_cases hgt : a.length > size_sub (size_sub 100 4) l
    · rw [if_pos hgt]
      exact ⟨_, _, l, rfl, hl, hl100, rfl, hn, hsz⟩
    · rw [if_neg hgt]
      have hs : a.length ≤ 100 := by
        rcases hs0 with h | h
        · exact h
        · rw [availsz_eq h] at hgt
          omega
      cases heap with
      | none => exact ⟨_, _, l, rfl, hl, hl100, rfl, hn, hsz⟩
      | some junk =>
        have hadd : size_add tmpl.cbtxn.datasz a.length = tmpl.cbtxn.datasz + a.length := by
          unfold size_add
          exact Nat.mod_eq_of_lt (by omega)
        have hlen := realloc_length tmpl.cbtxn.data (tmpl.cbtxn.datasz + a.length) junk
        have hl1 : (realloc tmpl.cbtxn.data (tmpl.cbtxn.datasz + a.length) junk)[cbScriptSigLen]? =
            some l := by
          rw [realloc_getElem? _ _ _ _ (by unfold cbScriptSigLen; omega)
            (by unfold cbScriptSigLen; omega)]
          exact hl
        simp only [hadd]
        rcases Nat.lt_or_ge 100 (l + a.length) with hover | hfit
        · have hrej := append_cb_reject
            { tmpl with cbtxn := { tmpl.cbtxn with
                data := realloc tmpl.cbtxn.data (tmpl.cbtxn.datasz + a.length) junk } }
            none a a.length l hl1 hs hover
          simp only [Option.getD_none] at hrej
          simp only [hrej]
          refine ⟨_, _, l, rfl, hl1, hl100, rfl, hn, ?_⟩
          simp only [hlen]
          omega
        · obtain ⟨o, h1, h2, h3, _⟩ := append_cb_inplace
            { tmpl with cbtxn := { tmpl.cbtxn with
                data := realloc tmpl.cbtxn.data (tmpl.cbtxn.datasz + a.length) junk } }
            a l hl1 hn (by simp only [hlen]; omega)
            (show tmpl.cbtxn.datasz < SIZE_MOD by omega) hfit
          simp only [] at h1 h2 h3
          rw [hlen] at h2
          have ho41 : o[cbScriptSigLen]? = some (l + a.length) := by
            have h4 := congrArg (fun x => x[cbScriptSigLen]?) h3
            simp only [] at h4
            rw [List.getElem?_take_of_lt (by unfold cbScriptSigLen; omega),
              spliced_getElem? hn (by simp only [hlen]; omega)] at h4
            rw [h4]
            simp [cbScriptSigLen]
          simp only [h1]
          refine ⟨_, _, l + a.length, rfl, ho41, hfit, ?_, ?_, ?_⟩
          · show tmpl.cbtxn.datasz + a.length + l = tmpl.cbtxn.datasz + (l + a.length)
            omega
          · show 42 + (l + a.length) ≤ tmpl.cbtxn.datasz + a.length
            omega
          · show tmpl.cbtxn.datasz + a.length ≤ o.length
            omega

theorem extranonce_zero_eq (E : Env) (tmpl : blktemplate_t) (vout : Bytes) (offs : Nat)
    (hsz : tmpl.cbtxn.datasz ≤ tmpl.cbtxn.data.length)
    (hcap : tmpl.cbtxn.datasz ≤ vout.length) :
    _blkmk_extranonce E tmpl vout 0 offs =
      some (true, tmpl.cbtxn.data.take tmpl.cbtxn.datasz ++ vout.drop tmpl.cbtxn.datasz,
        size_add offs tmpl.cbtxn.datasz) := by
  have hrd : rd tmpl.cbtxn.data 0 tmpl.cbtxn.datasz =
      some (tmpl.cbtxn.data.take tmpl.cbtxn.datasz) := by
    rw [rd_eq_some (by omega)]
    simp
  have hlen : (tmpl.cbtxn.data.take tmpl.cbtxn.datasz).length = tmpl.cbtxn.datasz := by
    rw [List.length_take]
    omega
  have hwr : wr vout 0 (tmpl.cbtxn.data.take tmpl.cbtxn.datasz) =
      some (tmpl.cbtxn.data.take tmpl.cbtxn.datasz ++ vout.drop tmpl.cbtxn.datasz) := by
    rw [wr_eq_some (by omega), hlen]
    simp
  unfold _blkmk_extranonce
  simp only [if_true, hrd, hwr]

theorem extranonce_nonzero_eq (E : Env) (tmpl : blktemplate_t) (vout : Bytes)
    (w offs l : Nat) (hw : w ≠ 0) (hrepr : (E.uint_repr w).length = 4)
    (hl : tmpl.cbtxn.data[cbScriptSigLen]? = some l) (hl96 : l ≤ 96)
    (hn : 42 + l < tmpl.cbtxn.datasz)
    (hsz : tmpl.cbtxn.datasz ≤ tmpl.cbtxn.data.length)
    (hM : tmpl.cbtxn.datasz < SIZE_MOD)
    (hcap : tmpl.cbtxn.datasz + 4 ≤ vout.length) :
    ∃ o, _blkmk_extranonce E tmpl vout w offs =
        some (true, o, size_add offs (size_add tmpl.cbtxn.datasz 4)) ∧
      o.take (tmpl.cbtxn.datasz + 4) =
        spliced tmpl.cbtxn.data l tmpl.cbtxn.datasz (E.uint_repr w) := by
  obtain ⟨o, h1, _, h3, _⟩ := append_cb_distinct tmpl vout (E.uint_repr w) l hl hn hsz hM
    (by omega) (by omega)
  rw [hrepr] at h1 h3
  refine ⟨o, ?_, h3⟩
  unfold _blkmk_extranonce
  simp only [hw, if_false, h1]

/-- The spliced bytes sit at offset `42 + l` of the result. -/
theorem spliced_window {inb : Bytes} {l n : Nat} {a : Bytes} (h1 : 42 + l ≤ n)
    (h2 : n ≤ inb.length) : ((spliced inb l n a).drop (42 + l)).take a.length = a := by
  apply List.ext_getElem?
  intro i
  rw [List.getElem?_take, List.getElem?_drop, spliced_getElem? h1 h2]
  by_cases hi : i < a.length
  · rw [if_pos hi, if_neg (by omega), if_neg (by omega), if_neg (by omega), if_pos (by omega)]
    congr 1
    omega
  · rw [if_neg hi, List.getElem?_eq_none (by omega)]

/-- On a well-formed template (fields of their C sizes, valid transaction
buffers, a coinbase with its script and at least one byte after it) and a
buffer that holds the stated capacity, `blkmk_get_data` runs to completion. -/
theorem get_data_returns (E : Env) (hd : Digest32 E.blkmk_sha256_impl)
    (scratch stack : Nat → Nat) (tmpl : blktemplate_t) (buf : Bytes) (bufsz : Nat)
    (usetime : Int) (out_dataid : Nat) (l : Nat)
    (hbuf : bufsz ≤ buf.length)
    (hprev : tmpl.prevblk.length = 32) (hbits : tmpl.diffbits.length = 4)
    (hmr : tmpl._mrklroot.length = 32)
    (htx : ∀ t ∈ tmpl.txns, t.datasz ≤ t.data.length)
    (hl : tmpl.cbtxn.data[cbScriptSigLen]? = some l)
    (hn : 42 + l < tmpl.cbtxn.datasz)
    (hsz : tmpl.cbtxn.datasz ≤ tmpl.cbtxn.data.length)
    (hM : tmpl.cbtxn.datasz + 4 < SIZE_MOD)
    (hrepr : ∀ w, (E.uint_repr w).length = 4) :
    ∃ r, blkmk_get_data E scratch stack tmpl buf bufsz usetime out_dataid = some r := by
  by_cases hlive : blkmk_time_left tmpl usetime ≠ 0 ∧ blkmk_work_left E tmpl ≠ 0
  · obtain ⟨htime, hwork⟩ := hlive
    by_cases hsmall : bufsz < 76
    · refine ⟨⟨76, tmpl, buf, out_dataid⟩, ?_⟩
      unfold blkmk_get_data
      simp [htime, hwork, hsmall]
    · have hadd : size_add tmpl.cbtxn.datasz 4 = tmpl.cbtxn.datasz + 4 := by
        unfold size_add
        exact Nat.mod_eq_of_lt hM
      have hvl : (uninit scratch (size_add tmpl.cbtxn.datasz 4)).length =
          tmpl.cbtxn.datasz + 4 := by
        simp [uninit, hadd]
      have hfin : ∀ cb cbsz, _blkmk_extranonce E tmpl (uninit scratch (size_add tmpl.cbtxn.datasz 4))
          tmpl.next_dataid 0 = some (true, cb, cbsz) →
          ∃ r, blkmk_get_data E scratch stack tmpl buf bufsz usetime out_dataid = some r := by
        intro cb cbsz hvar
        have hlv := get_data_live E hd scratch stack tmpl buf bufsz usetime out_dataid htime hwork
          (by omega) hbuf hprev hbits hmr htx cb cbsz hvar
        cases hroot : merkleRoot E.blkmk_sha256_impl (cb.take cbsz)
            (tmpl.txns.map blktxn_t.bytes) with
        | none =>
          obtain ⟨b, hb⟩ := hlv.1 hroot
          exact ⟨_, hb⟩
        | some root =>
          obtain ⟨b, hb, _⟩ := hlv.2 root hroot
          exact ⟨_, hb⟩
      by_cases hw : tmpl.next_dataid = 0
      · have h0 := extranonce_zero_eq E tmpl (uninit scratch (size_add tmpl.cbtxn.datasz 4)) 0 hsz
          (by omega)
        have h1 : _blkmk_extranonce E tmpl (uninit scratch (size_add tmpl.cbtxn.datasz 4))
            tmpl.next_dataid 0 = _blkmk_extranonce E tmpl
              (uninit scratch (size_add tmpl.cbtxn.datasz 4)) 0 0 := by
          rw [hw]
        exact hfin _ _ (h1.trans h0)
      · rcases Nat.lt_or_ge 96 l with hbig | hfit
        · have hrej := append_cb_reject tmpl (some (uninit scratch (size_add tmpl.cbtxn.datasz 4)))
            (E.uint_repr tmpl.next_dataid) 4 l hl (by omega) (by omega)
          have hx : _blkmk_extranonce E
              { tmpl with next_dataid := (tmpl.next_dataid + 1) % UINT_MOD }
              (uninit scratch (size_add tmpl.cbtxn.datasz 4)) tmpl.next_dataid 0 =
              some (false, uninit scratch (size_add tmpl.cbtxn.datasz 4), 0) := by
            refine (extranonce_congr E _ tmpl rfl _ _ _).trans ?_
            unfold _blkmk_extranonce
            simp only [hw, if_false, hrej, Option.getD_some]
          have hlv : (!(blkmk_time_left tmpl usetime != 0 && blkmk_work_left E tmpl != 0)) =
              false := by
            simp [htime, hwork]
          obtain ⟨b1, hb1⟩ : ∃ b1, my_htole32 buf 0 tmpl.version = some b1 :=
            ⟨_, by unfold my_htole32; exact wr_eq_some (by simp; omega)⟩
          have hb1l := wr_length hb1
          have hpb : rd tmpl.prevblk 0 32 = some tmpl.prevblk := by
            rw [rd_eq_some (by omega), ← hprev]
            simp
          obtain ⟨b2, hb2⟩ : ∃ b2, wr b1 4 tmpl.prevblk = some b2 := ⟨_, wr_eq_some (by omega)⟩
          refine ⟨⟨0, { tmpl with next_dataid := (tmpl.next_dataid + 1) % UINT_MOD }, b2,
            tmpl.next_dataid⟩, ?_⟩
          unfold blkmk_get_data
          simp only [hlv, hsmall, if_false, hb1, hpb, hb2, hx, Bool.false_eq_true]
        · obtain ⟨o, h1, _⟩ := extranonce_nonzero_eq E tmpl
            (uninit scratch (size_add tmpl.cbtxn.datasz 4)) tmpl.next_dataid 0 l hw
            (hrepr _) hl hfit hn hsz (by omega) (by omega)
          exact hfin _ _ h1
  · refine ⟨⟨0, tmpl, buf, out_dataid⟩, ?_⟩
    have h : blkmk_time_left tmpl usetime = 0 ∨ blkmk_work_left E tmpl = 0 := by
      by_cases h1 : blkmk_time_left tmpl usetime = 0
      · exact Or.inl h1
      · by_cases h2 : blkmk_work_left E tmpl = 0
        · exact Or.inr h2
        · exact absurd ⟨h1, h2⟩ hlive
    unfold blkmk_get_data
    rcases h with h | h
    · simp [h]
    · simp [h]

/-! ## Time left -/

/-- The conversion to `blktime_diff_t` keeps a value of the type's range. -/
theorem to_blktime_diff_of_range (x : Int) (h1 : -32768 ≤ x) (h2 : x ≤ 32767) :
    to_blktime_diff x = x := by
  unfold to_blktime_diff
  omega

/-- The conversion to `blktime_diff_t` yields a value of the type's range. -/
theorem to_blktime_diff_range (x : Int) :
    -32768 ≤ to_blktime_diff x ∧ to_blktime_diff x ≤ 32767 := by
  unfold to_blktime_diff
  omega

/-- The result of `blkmk_time_left` while `expiry - (now - received time)` is
at most 32767: 0 when `now - received time ≥ expiry`, otherwise
`expiry - (now - received time)`, and never negative. Whatever the input, the
result is a value of the 16-bit result type. -/
theorem time_left_in_range (tmpl : blktemplate_t) (now : Int) :
    (now - tmpl._time_rcvd ≥ tmpl.expires → blkmk_time_left tmpl now = 0) ∧
    (now - tmpl._time_rcvd < tmpl.expires →
      tmpl.expires - (now - tmpl._time_rcvd) ≤ 32767 →
      blkmk_time_left tmpl now = tmpl.expires - (now - tmpl._time_rcvd)) ∧
    (tmpl.expires - (now - tmpl._time_rcvd) ≤ 32767 → 0 ≤ blkmk_time_left tmpl now) ∧
    (-32768 ≤ blkmk_time_left tmpl now ∧ blkmk_time_left tmpl now ≤ 32767) := by
  unfold blkmk_time_left
  refine ⟨fun h => ?_, fun h hr => ?_, fun hr => ?_, ?_⟩
  · simp only [h, if_true]
  · have h1 : ¬ (now - tmpl._time_rcvd ≥ tmpl.expires) := by omega
    simp only [h1, if_false]
    exact to_blktime_diff_of_range _ (by omega) hr
  · simp only []
    split
    · omega
    · rw [to_blktime_diff_of_range _ (by omega) hr]
      omega
  · simp only []
    split
    · omega
    · exact to_blktime_diff_range _

/-! ## Claims -/

set_option maxRecDepth 100000

theorem toySha_digest32 : Digest32 toySha := by
  intro d h e
  simp only [toySha, Option.some.injEq] at e
  subst e
  simp

theorem toySha_total : ∀ d, toyEnv.blkmk_sha256_impl d ≠ none := by
  intro d h
  cases h

theorem pickySha_digest32 : Digest32 pickyEnv.blkmk_sha256_impl := by
  intro d h e
  simp only [pickyEnv, pickySha] at e
  split at e
  · cases e
  · exact toySha_digest32 d h e

theorem le_repr_injective :
    ∀ x y, x < 2 ^ 32 → y < 2 ^ 32 → toyEnv.uint_repr x = toyEnv.uint_repr y → x = y := by
  intro x y hx hy h
  simp only [toyEnv, le_repr, List.cons.injEq, and_true] at h
  omega

/-- C1: `build_merkle_root` computes the reference fold.  Whatever the hash
does, the call ends as the fold over fresh lists prescribes (the root written
to the output, or failure); when every call of the hash succeeds it returns
success and writes the 32-byte root of the fold; with no other transaction the
root is the double hash of the coinbase, and with three leaves it is
`dbl (dbl (l0 ++ l1) ++ dbl (l2 ++ l2))`. -/
theorem build_merkle_root_reference_fold (E : Env) (hd : Digest32 E.blkmk_sha256_impl)
    (stack : Nat → Nat) (out : Bytes) (outoff : Nat) (tmpl : blktemplate_t)
    (cbtxndata : Bytes) (cbtxndatasz : Nat)
    (hcb : cbtxndatasz ≤ cbtxndata.length)
    (htx : ∀ t ∈ tmpl.txns, t.datasz ≤ t.data.length)
    (hout : outoff + 32 ≤ out.length) :
    build_merkle_root E stack out outoff tmpl cbtxndata cbtxndatasz =
        some (rootOutcome out outoff
          (merkleRoot E.blkmk_sha256_impl (cbtxndata.take cbtxndatasz)
            (tmpl.txns.map blktxn_t.bytes))) ∧
    ((∀ d, E.blkmk_sha256_impl d ≠ none) →
      ∃ root, merkleRoot E.blkmk_sha256_impl (cbtxndata.take cbtxndatasz)
            (tmpl.txns.map blktxn_t.bytes) = some root ∧
        root.length = 32 ∧
        build_merkle_root E stack out outoff tmpl cbtxndata cbtxndatasz =
          some (true, out.take outoff ++ root ++ out.drop (outoff + 32))) ∧
    (tmpl.txns = [] →
      merkleRoot E.blkmk_sha256_impl (cbtxndata.take cbtxndatasz)
          (tmpl.txns.map blktxn_t.bytes) =
        dblHash E.blkmk_sha256_impl (cbtxndata.take cbtxndatasz)) ∧
    (∀ t1 t2, tmpl.txns = [t1, t2] →
      merkleRoot E.blkmk_sha256_impl (cbtxndata.take cbtxndatasz)
          (tmpl.txns.map blktxn_t.bytes) =
        (dblHash E.blkmk_sha256_impl (cbtxndata.take cbtxndatasz)).bind fun l0 =>
        (dblHash E.blkmk_sha256_impl t1.bytes).bind fun l1 =>
        (dblHash E.blkmk_sha256_impl t2.bytes).bind fun l2 =>
        (dblHash E.blkmk_sha256_impl (l0 ++ l1)).bind fun a =>
        (dblHash E.blkmk_sha256_impl (l2 ++ l2)).bind fun b =>
          dblHash E.blkmk_sha256_impl (a ++ b)) := by
  have hspec := build_merkle_root_spec E hd stack out outoff tmpl cbtxndata cbtxndatasz
    hcb htx hout
  refine ⟨hspec, fun hok => ?_, fun h0 => ?_, fun t1 t2 h2 => ?_⟩
  · obtain ⟨root, hr⟩ := merkleRoot_total hok (cbtxndata.take cbtxndatasz)
      (tmpl.txns.map blktxn_t.bytes)
    refine ⟨root, hr, merkleRoot_length hd _ _ root hr, ?_⟩
    rw [hspec, hr]
    rfl
  · rw [h0]
    exact merkleRoot_nil _ _
  · rw [h2]
    exact merkleRoot_three _ _ _ _

theorem build_merkle_root_reference_fold_witness :
    Digest32 toyEnv.blkmk_sha256_impl ∧ 49 ≤ exCoinbase.data.length ∧
    (∀ t ∈ exTmpl.txns, t.datasz ≤ t.data.length) ∧
    36 + 32 ≤ (List.replicate 76 0).length ∧
    build_merkle_root toyEnv (fun _ => 7) (List.replicate 76 0) 36 exTmpl exCoinbase.data 49 =
      some (rootOutcome (List.replicate 76 0) 36
        (merkleRoot toyEnv.blkmk_sha256_impl (exCoinbase.data.take 49)
          (exTmpl.txns.map blktxn_t.bytes))) :=
  ⟨toySha_digest32, by decide, by decide, by decide,
    (build_merkle_root_reference_fold toyEnv toySha_digest32 (fun _ => 7) (List.replicate 76 0)
      36 exTmpl exCoinbase.data 49 (by decide) (by decide) (by decide)).1⟩

/-- C2: for a live template (time left and work left non-zero), a buffer
capacity of at least 76 and a hash that succeeds, when the coinbase variant for
the template's `next_dataid` can be built, `blkmk_get_data` returns 76, sets
the output work identifier to the `next_dataid` of before the call, and writes
the little-endian version into bytes [0,4), the previous-block hash into
[4,36), the merkle root (reference fold) of the coinbase variant followed by
the other transactions into [36,68), and the difficulty bits into [72,76). -/
theorem get_data_writes_header (E : Env) (hd : Digest32 E.blkmk_sha256_impl)
    (hok : ∀ d, E.blkmk_sha256_impl d ≠ none) (scratch stack : Nat → Nat)
    (tmpl : blktemplate_t) (buf : Bytes) (bufsz : Nat) (usetime : Int) (out_dataid : Nat)
    (htime : blkmk_time_left tmpl usetime ≠ 0) (hwork : blkmk_work_left E tmpl ≠ 0)
    (hbufsz : 76 ≤ bufsz) (hbuf : bufsz ≤ buf.length)
    (hprev : tmpl.prevblk.length = 32) (hbits : tmpl.diffbits.length = 4)
    (hmr : tmpl._mrklroot.length = 32)
    (htx : ∀ t ∈ tmpl.txns, t.datasz ≤ t.data.length)
    (cb : Bytes) (cbsz : Nat)
    (hvar : _blkmk_extranonce E tmpl (uninit scratch (size_add tmpl.cbtxn.datasz 4))
      tmpl.next_dataid 0 = some (true, cb, cbsz)) :
    ∃ r root, blkmk_get_data E scratch stack tmpl buf bufsz usetime out_dataid = some r ∧
      r.ret = 76 ∧ r.out_dataid = tmpl.next_dataid ∧
      merkleRoot E.blkmk_sha256_impl (cb.take cbsz) (tmpl.txns.map blktxn_t.bytes) = some root ∧
      r.buf.length = buf.length ∧
      r.buf.take 4 = [tmpl.version % 256, tmpl.version / 2 ^ 8 % 256,
        tmpl.version / 2 ^ 16 % 256, tmpl.version / 2 ^ 24 % 256] ∧
      (r.buf.drop 4).take 32 = tmpl.prevblk ∧
      (r.buf.drop 36).take 32 = root ∧
      (r.buf.drop 72).take 4 = tmpl.diffbits := by
  obtain ⟨root, hroot⟩ := merkleRoot_total hok (cb.take cbsz) (tmpl.txns.map blktxn_t.bytes)
  obtain ⟨b, hb, h1, h2, h3, h4, h5, _⟩ :=
    (get_data_live E hd scratch stack tmpl buf bufsz usetime out_dataid htime hwork hbufsz hbuf
      hprev hbits hmr htx cb cbsz hvar).2 root hroot
  exact ⟨_, root, hb, rfl, rfl, hroot, h1, h2, h3, h4, h5⟩

theorem get_data_writes_header_witness :
    blkmk_time_left exTmpl 510 ≠ 0 ∧ blkmk_work_left toyEnv exTmpl ≠ 0 ∧
    (76 : Nat) ≤ 80 ∧ 80 ≤ (List.replicate 80 5).length ∧
    exTmpl.prevblk.length = 32 ∧ exTmpl.diffbits.length = 4 ∧ exTmpl._mrklroot.length = 32 ∧
    (∀ t ∈ exTmpl.txns, t.datasz ≤ t.data.length) ∧
    _blkmk_extranonce toyEnv exTmpl (uninit (fun _ => 1) (size_add exTmpl.cbtxn.datasz 4))
      exTmpl.next_dataid 0 = some (true, exCoinbase.data ++ [1, 1, 1, 1], 49) ∧
    ∃ r root, blkmk_get_data toyEnv (fun _ => 1) (fun _ => 2) exTmpl (List.replicate 80 5) 80
        510 0 = some r ∧
      r.ret = 76 ∧ r.out_dataid = exTmpl.next_dataid ∧
      merkleRoot toyEnv.blkmk_sha256_impl ((exCoinbase.data ++ [1, 1, 1, 1]).take 49)
        (exTmpl.txns.map blktxn_t.bytes) = some root ∧
      r.buf.length = (List.replicate 80 5).length ∧
      r.buf.take 4 = [exTmpl.version % 256, exTmpl.version / 2 ^ 8 % 256,
        exTmpl.version / 2 ^ 16 % 256, exTmpl.version / 2 ^ 24 % 256] ∧
      (r.buf.drop 4).take 32 = exTmpl.prevblk ∧
      (r.buf.drop 36).take 32 = root ∧
      (r.buf.drop 72).take 4 = exTmpl.diffbits :=
  ⟨by decide, by decide, by decide, by decide, by decide, by decide, by decide, by decide,
    by decide,
    get_data_writes_header toyEnv toySha_digest32 toySha_total (fun _ => 1) (fun _ => 2) exTmpl
      (List.replicate 80 5) 80 510 0 (by decide) (by decide) (by decide) (by decide) (by decide)
      (by decide) (by decide) (by decide) (exCoinbase.data ++ [1, 1, 1, 1]) 49 (by decide)⟩

/-- C3: for a coinbase of `n` bytes whose script length byte (offset 41) is
`l`, with at least one byte after the script payload, and an append string `a`
with `l + |a| ≤ 100`, `_blkmk_append_cb` succeeds and the first `n + |a|`
output bytes are `in[0..41) ++ [l + |a|] ++ in[42..42+l) ++ a ++ in[42+l..n)`,
both into a distinct buffer (whose later bytes are kept) and in place. -/
theorem append_cb_splices (tmpl : blktemplate_t) (a : Bytes) (l : Nat)
    (hl : tmpl.cbtxn.data[41]? = some l)
    (hn : 42 + l < tmpl.cbtxn.datasz)
    (hsz : tmpl.cbtxn.datasz ≤ tmpl.cbtxn.data.length)
    (hM : tmpl.cbtxn.datasz < 2 ^ 64)
    (hla : l + a.length ≤ 100) :
    (∀ out : Bytes, tmpl.cbtxn.datasz + a.length ≤ out.length →
      ∃ o, _blkmk_append_cb tmpl (some out) a a.length = some (true, o) ∧
        o.take (tmpl.cbtxn.datasz + a.length) =
          tmpl.cbtxn.data.take 41 ++ [l + a.length] ++ (tmpl.cbtxn.data.drop 42).take l ++ a ++
            (tmpl.cbtxn.data.drop (42 + l)).take (tmpl.cbtxn.datasz - (42 + l)) ∧
        o.drop (tmpl.cbtxn.datasz + a.length) = out.drop (tmpl.cbtxn.datasz + a.length)) ∧
    (tmpl.cbtxn.datasz + a.length ≤ tmpl.cbtxn.data.length →
      ∃ o, _blkmk_append_cb tmpl none a a.length = some (true, o) ∧
        o.take (tmpl.cbtxn.datasz + a.length) =
          tmpl.cbtxn.data.take 41 ++ [l + a.length] ++ (tmpl.cbtxn.data.drop 42).take l ++ a ++
            (tmpl.cbtxn.data.drop (42 + l)).take (tmpl.cbtxn.datasz - (42 + l))) := by
  constructor
  · intro out hcap
    obtain ⟨o, h1, _, h3, h4⟩ := append_cb_distinct tmpl out a l hl hn hsz hM hla hcap
    exact ⟨o, h1, h3, h4⟩
  · intro hcap
    obtain ⟨o, h1, _, h3, _⟩ := append_cb_inplace tmpl a l hl (by omega) hcap hM hla
    exact ⟨o, h1, h3⟩

theorem append_cb_splices_witness :
    exRoomy.cbtxn.data[41]? = some 2 ∧ 42 + 2 < exRoomy.cbtxn.datasz ∧
    exRoomy.cbtxn.datasz ≤ exRoomy.cbtxn.data.length ∧ exRoomy.cbtxn.datasz < 2 ^ 64 ∧
    2 + [55, 56].length ≤ 100 ∧
    (∃ o, _blkmk_append_cb exRoomy (some (List.replicate 60 9)) [55, 56] 2 = some (true, o) ∧
      o.take 51 = List.replicate 41 0 ++ [4, 7, 8, 55, 56, 1, 2, 3, 4, 5] ∧
      o.drop 51 = List.replicate 9 9) ∧
    (∃ o, _blkmk_append_cb exRoomy none [55, 56] 2 = some (true, o) ∧
      o.take 51 = List.replicate 41 0 ++ [4, 7, 8, 55, 56, 1, 2, 3, 4, 5]) :=
  ⟨by decide, by decide, by decide, by decide, by decide,
    (append_cb_splices exRoomy [55, 56] 2 (by decide) (by decide) (by decide) (by decide)
      (by decide)).1 (List.replicate 60 9) (by decide),
    (append_cb_splices exRoomy [55, 56] 2 (by decide) (by decide) (by decide) (by decide)
      (by decide)).2 (by decide)⟩

/-- C4, the code at the failing input: the template permits coinbase append,
the script length byte is 97 and one byte is appended.  The capacity
`100 - 4 - 97` wraps around in `size_t`, the guard does not fire, and the call
appends the byte: it returns -1, the script length byte becomes 98 and the
recorded length grows from 144 to 145. -/
theorem append_safe_overruns_reserve :
    cbMutable toyEnv exTight = true ∧ exTight.cbtxn.data[41]? = some 97 ∧
    blkmk_append_coinbase_safe toyEnv exTight [170] 1 (some fun _ => 0) =
      some (-1, { exTight with
        cbtxn := ⟨List.replicate 41 0 ++ [98] ++ List.replicate 97 7 ++ [170] ++ [1, 2, 3, 4, 5],
          145⟩ }) := by
  decide

/-- C5: for a template that permits coinbase append or set, whose coinbase
(recorded length `n`, script length `l ≤ 96`, the payload inside the recorded
length) is followed by chunks whose lengths sum to exactly `96 - l`, every
call of `blkmk_append_coinbase_safe` (with `realloc` succeeding) returns the
capacity available before it and grows the recorded length by the chunk
length; afterwards every further call with at least one byte returns 0 and
leaves the template, hence the coinbase bytes and length, unchanged. -/
theorem append_safe_fills_capacity (E : Env) (tmpl : blktemplate_t)
    (calls : List (Bytes × (Nat → Nat))) (l : Nat)
    (hmut : cbMutable E tmpl = true)
    (hl : tmpl.cbtxn.data[41]? = some l) (hl96 : l ≤ 96)
    (hn : 42 + l ≤ tmpl.cbtxn.datasz)
    (hsz : tmpl.cbtxn.datasz ≤ tmpl.cbtxn.data.length)
    (hM : tmpl.cbtxn.datasz + 96 < 2 ^ 64)
    (hsum : (calls.map fun c => c.1.length).sum = 96 - l) :
    ∃ tmpl1, appendAll E tmpl calls =
        some (expectedCalls (96 - l) tmpl.cbtxn.datasz (calls.map fun c => c.1.length), tmpl1) ∧
      tmpl1.cbtxn.datasz = tmpl.cbtxn.datasz + (96 - l) ∧
      tmpl1.cbtxn.data[41]? = some 96 ∧
      ∀ (a : Bytes) (heap : Option (Nat → Nat)), 0 < a.length →
        blkmk_append_coinbase_safe E tmpl1 a a.length heap = some (0, tmpl1) := by
  obtain ⟨tmpl1, e1, e2, e3, e4⟩ := appendAll_spec E calls tmpl l hmut hl (by omega) hn hsz
    (by unfold SIZE_MOD; omega)
  rw [hsum] at e3 e4
  have e5 : l + (96 - l) = 96 := by omega
  rw [e5] at e3
  refine ⟨tmpl1, e1, e4, e3, ?_⟩
  intro a heap ha
  have := append_safe_full E tmpl1 a heap 96 e2 e3 (Nat.le_refl _) (by omega)
  simpa using this

theorem append_safe_fills_capacity_witness :
    cbMutable toyEnv exTmpl = true ∧ exTmpl.cbtxn.data[41]? = some 2 ∧ (2 : Nat) ≤ 96 ∧
    42 + 2 ≤ exTmpl.cbtxn.datasz ∧ exTmpl.cbtxn.datasz ≤ exTmpl.cbtxn.data.length ∧
    exTmpl.cbtxn.datasz + 96 < 2 ^ 64 ∧
    (([(List.replicate 90 1, fun _ => 0), (List.replicate 4 2, fun _ => 0)] :
      List (Bytes × (Nat → Nat))).map fun c => c.1.length).sum = 96 - 2 ∧
    ∃ tmpl1, appendAll toyEnv exTmpl
        [(List.replicate 90 1, fun _ => 0), (List.replicate 4 2, fun _ => 0)] =
        some (expectedCalls (96 - 2) exTmpl.cbtxn.datasz
          (([(List.replicate 90 1, fun _ => 0), (List.replicate 4 2, fun _ => 0)] :
            List (Bytes × (Nat → Nat))).map fun c => c.1.length), tmpl1) ∧
      tmpl1.cbtxn.datasz = exTmpl.cbtxn.datasz + (96 - 2) ∧
      tmpl1.cbtxn.data[41]? = some 96 ∧
      ∀ (a : Bytes) (heap : Option (Nat → Nat)), 0 < a.length →
        blkmk_append_coinbase_safe toyEnv tmpl1 a a.length heap = some (0, tmpl1) :=
  ⟨by decide, by decide, by decide, by decide, by decide, by decide, by decide,
    append_safe_fills_capacity toyEnv exTmpl
      [(List.replicate 90 1, fun _ => 0), (List.replicate 4 2, fun _ => 0)] 2
      (by decide) (by decide) (by decide) (by decide) (by decide) (by decide) (by decide)⟩

/-- C6, the code at the failing input: on a template that forbids coinbase
append and set, `blkmk_work_left` is 1 whatever `next_dataid` is; with
`next_dataid = UINT_MAX` a call of `blkmk_get_data` returns 76, hands out the
identifier 4294967295 and wraps the counter to 0, and the next call hands out
the identifier 0. -/
theorem get_data_counter_wraps :
    blkmk_work_left toyEnv exFrozenMax = 1 ∧
    (blkmk_get_data toyEnv (fun _ => 1) (fun _ => 2) exFrozenMax (List.replicate 76 5) 76 510
        0).map (fun r => (r.ret, r.out_dataid, r.tmpl.next_dataid)) =
      some (76, 4294967295, 0) ∧
    ((blkmk_get_data toyEnv (fun _ => 1) (fun _ => 2) exFrozenMax (List.replicate 76 5) 76 510
        0).bind fun r =>
      (blkmk_get_data toyEnv (fun _ => 1) (fun _ => 2) r.tmpl r.buf 76 511 r.out_dataid).map
        (fun r2 => (r2.ret, r2.out_dataid))) = some (76, 0) := by
  decide

/-- C7, the code at the failing input: on a template with version 2 that
forbids coinbase append and set, `blkmk_work_left` is 1, a call of
`blkmk_get_data` returns 76 and consumes the identifier 0, and
`blkmk_work_left` is still 1 afterwards. -/
theorem work_left_stays_one :
    blkmk_work_left toyEnv exFrozen = 1 ∧
    (blkmk_get_data toyEnv (fun _ => 1) (fun _ => 2) exFrozen (List.replicate 76 5) 76 510
        0).map (fun r => (r.ret, r.out_dataid, r.tmpl.next_dataid, blkmk_work_left toyEnv r.tmpl)) =
      some (76, 0, 1, 1) := by
  decide

/-- C8: for a coinbase of `n` bytes with script length `l ≤ 96` and at least
one byte after the payload, and a non-zero work identifier `w`,
`_blkmk_extranonce` succeeds, advances the offset by `n + 4` (in `size_t`
arithmetic, so exactly when the sum is representable) and writes the `n + 4`
bytes `in[0..41) ++ [l + 4] ++ in[42..42+l) ++ bytes(w) ++ in[42+l..n)`,
leaving the rest of the output buffer alone; when `l > 96` it returns failure
and changes nothing. -/
theorem extranonce_splices_workid (E : Env) (tmpl : blktemplate_t) (vout : Bytes)
    (w offs l : Nat) (hw : w ≠ 0) (hrepr : (E.uint_repr w).length = 4)
    (hl : tmpl.cbtxn.data[41]? = some l)
    (hsz : tmpl.cbtxn.datasz ≤ tmpl.cbtxn.data.length)
    (hM : tmpl.cbtxn.datasz < 2 ^ 64) :
    (l ≤ 96 → 42 + l < tmpl.cbtxn.datasz → tmpl.cbtxn.datasz + 4 ≤ vout.length →
      ∃ o offs1, _blkmk_extranonce E tmpl vout w offs = some (true, o, offs1) ∧
        offs1 = (offs + (tmpl.cbtxn.datasz + 4) % 2 ^ 64) % 2 ^ 64 ∧
        (offs + tmpl.cbtxn.datasz + 4 < 2 ^ 64 → offs1 = offs + (tmpl.cbtxn.datasz + 4)) ∧
        o.take (tmpl.cbtxn.datasz + 4) =
          tmpl.cbtxn.data.take 41 ++ [l + 4] ++ (tmpl.cbtxn.data.drop 42).take l ++
            E.uint_repr w ++
            (tmpl.cbtxn.data.drop (42 + l)).take (tmpl.cbtxn.datasz - (42 + l)) ∧
        o.drop (tmpl.cbtxn.datasz + 4) = vout.drop (tmpl.cbtxn.datasz + 4)) ∧
    (96 < l → _blkmk_extranonce E tmpl vout w offs = some (false, vout, offs)) := by
  constructor
  · intro hl96 hn hcap
    obtain ⟨o, h1, _, h3, h4⟩ := append_cb_distinct tmpl vout (E.uint_repr w) l hl hn hsz hM
      (by omega) (by omega)
    rw [hrepr] at h1 h3 h4
    refine ⟨o, size_add offs (size_add tmpl.cbtxn.datasz 4), ?_, rfl, ?_, ?_, h4⟩
    · unfold _blkmk_extranonce
      simp only [hw, if_false, h1]
    · intro hlt
      unfold size_add SIZE_MOD
      omega
    · rw [h3]
      simp only [spliced, hrepr]
  · intro hl96
    have h1 := append_cb_reject tmpl (some vout) (E.uint_repr w) 4 l hl (by omega) (by omega)
    unfold _blkmk_extranonce
    simp only [hw, if_false, h1, Option.getD_some]

theorem extranonce_splices_workid_witness :
    (5 : Nat) ≠ 0 ∧ (toyEnv.uint_repr 5).length = 4 ∧ exTmpl.cbtxn.data[41]? = some 2 ∧
    exTmpl.cbtxn.datasz ≤ exTmpl.cbtxn.data.length ∧ exTmpl.cbtxn.datasz < 2 ^ 64 ∧
    (∃ o offs1, _blkmk_extranonce toyEnv exTmpl (List.replicate 53 9) 5 0 = some (true, o, offs1) ∧
      offs1 = (0 + (exTmpl.cbtxn.datasz + 4) % 2 ^ 64) % 2 ^ 64 ∧
      (0 + exTmpl.cbtxn.datasz + 4 < 2 ^ 64 → offs1 = 0 + (exTmpl.cbtxn.datasz + 4)) ∧
      o.take (exTmpl.cbtxn.datasz + 4) =
        exTmpl.cbtxn.data.take 41 ++ [2 + 4] ++ (exTmpl.cbtxn.data.drop 42).take 2 ++
          toyEnv.uint_repr 5 ++
          (exTmpl.cbtxn.data.drop (42 + 2)).take (exTmpl.cbtxn.datasz - (42 + 2)) ∧
      o.drop (exTmpl.cbtxn.datasz + 4) = (List.replicate 53 9).drop (exTmpl.cbtxn.datasz + 4)) :=
  ⟨by decide, by decide, by decide, by decide, by decide,
    (extranonce_splices_workid toyEnv exTmpl (List.replicate 53 9) 5 0 2 (by decide) (by decide)
      (by decide) (by decide) (by decide)).1 (by decide) (by decide) (by decide)⟩

/-- C9: with work identifier 0, whatever the coinbase bytes, the script
length byte and the mutation bitmask, `_blkmk_extranonce` succeeds, writes
exactly the `datasz` bytes of the coinbase transaction at the start of the
output buffer (the bytes behind them are kept) and advances the offset by
`datasz` (in `size_t` arithmetic, so exactly when the sum is representable). -/
theorem extranonce_zero_copies (E : Env) (tmpl : blktemplate_t) (vout : Bytes) (offs : Nat)
    (hsz : tmpl.cbtxn.datasz ≤ tmpl.cbtxn.data.length)
    (hcap : tmpl.cbtxn.datasz ≤ vout.length) :
    _blkmk_extranonce E tmpl vout 0 offs =
        some (true, tmpl.cbtxn.data.take tmpl.cbtxn.datasz ++ vout.drop tmpl.cbtxn.datasz,
          (offs + tmpl.cbtxn.datasz) % 2 ^ 64) ∧
    (offs + tmpl.cbtxn.datasz < 2 ^ 64 →
      (offs + tmpl.cbtxn.datasz) % 2 ^ 64 = offs + tmpl.cbtxn.datasz) := by
  constructor
  · have hrd : rd tmpl.cbtxn.data 0 tmpl.cbtxn.datasz =
        some (tmpl.cbtxn.data.take tmpl.cbtxn.datasz) := by
      rw [rd_eq_some (by omega)]
      simp
    have hlen : (tmpl.cbtxn.data.take tmpl.cbtxn.datasz).length = tmpl.cbtxn.datasz := by
      rw [List.length_take]
      omega
    have hwr : wr vout 0 (tmpl.cbtxn.data.take tmpl.cbtxn.datasz) =
        some (tmpl.cbtxn.data.take tmpl.cbtxn.datasz ++ vout.drop tmpl.cbtxn.datasz) := by
      rw [wr_eq_some (by omega), hlen]
      simp
    unfold _blkmk_extranonce
    simp only [if_true, hrd, hwr, size_add, SIZE_MOD]
  · intro h
    exact Nat.mod_eq_of_lt h

theorem extranonce_zero_copies_witness :
    exTmpl.cbtxn.datasz ≤ exTmpl.cbtxn.data.length ∧
    exTmpl.cbtxn.datasz ≤ (List.replicate 53 9).length ∧
    _blkmk_extranonce toyEnv exTmpl (List.replicate 53 9) 0 0 =
      some (true, exTmpl.cbtxn.data.take exTmpl.cbtxn.datasz ++
        (List.replicate 53 9).drop exTmpl.cbtxn.datasz, (0 + exTmpl.cbtxn.datasz) % 2 ^ 64) :=
  ⟨by decide, by decide,
    (extranonce_zero_copies toyEnv exTmpl (List.replicate 53 9) 0 (by decide) (by decide)).1⟩

/-- Hash failure in `blkmk_get_data` away from the end of the counter: for a
live template and a buffer capacity of at least 76, once the coinbase variant
is built, if an invocation of the hash fails (on the coinbase leaf, on a
transaction leaf or on a fold step, so that the merkle computation has no
result), `blkmk_get_data` returns 0, `*out_dataid` holds the old `next_dataid`
and `next_dataid` has been incremented as an `unsigned int`: it is one larger
than before when the old value is below `UINT_MAX`, and 0 when the old value is
`UINT_MAX`. -/
theorem get_data_hash_failure (E : Env) (hd : Digest32 E.blkmk_sha256_impl)
    (scratch stack : Nat → Nat)
    (tmpl : blktemplate_t) (buf : Bytes) (bufsz : Nat) (usetime : Int) (out_dataid : Nat)
    (htime : blkmk_time_left tmpl usetime ≠ 0) (hwork : blkmk_work_left E tmpl ≠ 0)
    (hbufsz : 76 ≤ bufsz) (hbuf : bufsz ≤ buf.length)
    (hprev : tmpl.prevblk.length = 32) (hbits : tmpl.diffbits.length = 4)
    (hmr : tmpl._mrklroot.length = 32)
    (htx : ∀ t ∈ tmpl.txns, t.datasz ≤ t.data.length)
    (cb : Bytes) (cbsz : Nat)
    (hvar : _blkmk_extranonce E tmpl (uninit scratch (size_add tmpl.cbtxn.datasz 4))
      tmpl.next_dataid 0 = some (true, cb, cbsz))
    (hfail : merkleRoot E.blkmk_sha256_impl (cb.take cbsz) (tmpl.txns.map blktxn_t.bytes) = none) :
    ∃ r, blkmk_get_data E scratch stack tmpl buf bufsz usetime out_dataid = some r ∧
      r.ret = 0 ∧ r.out_dataid = tmpl.next_dataid ∧
      r.tmpl.next_dataid = (tmpl.next_dataid + 1) % 2 ^ 32 ∧
      (tmpl.next_dataid < UINT_MAX → r.tmpl.next_dataid = tmpl.next_dataid + 1) := by
  obtain ⟨b, hb⟩ :=
    (get_data_live E hd scratch stack tmpl buf bufsz usetime out_dataid htime hwork hbufsz hbuf
      hprev hbits hmr htx cb cbsz hvar).1 hfail
  refine ⟨_, hb, rfl, rfl, rfl, ?_⟩
  intro hlt
  simp only [UINT_MOD]
  unfold UINT_MAX at hlt
  omega

theorem get_data_hash_failure_witness :
    blkmk_time_left exTmpl 510 ≠ 0 ∧ blkmk_work_left pickyEnv exTmpl ≠ 0 ∧
    (76 : Nat) ≤ 80 ∧ 80 ≤ (List.replicate 80 5).length ∧
    exTmpl.prevblk.length = 32 ∧ exTmpl.diffbits.length = 4 ∧ exTmpl._mrklroot.length = 32 ∧
    (∀ t ∈ exTmpl.txns, t.datasz ≤ t.data.length) ∧
    _blkmk_extranonce pickyEnv exTmpl (uninit (fun _ => 1) (size_add exTmpl.cbtxn.datasz 4))
      exTmpl.next_dataid 0 = some (true, exCoinbase.data ++ [1, 1, 1, 1], 49) ∧
    merkleRoot pickyEnv.blkmk_sha256_impl ((exCoinbase.data ++ [1, 1, 1, 1]).take 49)
      (exTmpl.txns.map blktxn_t.bytes) = none ∧
    ∃ r, blkmk_get_data pickyEnv (fun _ => 1) (fun _ => 2) exTmpl (List.replicate 80 5) 80
        510 0 = some r ∧
      r.ret = 0 ∧ r.out_dataid = exTmpl.next_dataid ∧
      r.tmpl.next_dataid = (exTmpl.next_dataid + 1) % 2 ^ 32 ∧
      (exTmpl.next_dataid < UINT_MAX → r.tmpl.next_dataid = exTmpl.next_dataid + 1) :=
  ⟨by decide, by decide, by decide, by decide, by decide, by decide, by decide, by decide,
    by decide, by decide,
    get_data_hash_failure pickyEnv pickySha_digest32 (fun _ => 1) (fun _ => 2) exTmpl
      (List.replicate 80 5) 80 510 0 (by decide) (by decide) (by decide) (by decide) (by decide)
      (by decide) (by decide) (by decide) (exCoinbase.data ++ [1, 1, 1, 1]) 49 (by decide)
      (by decide)⟩

/-- C10, the code at the failing input: the template `exFrozenMax` forbids
coinbase append and set and has `next_dataid = UINT_MAX`; it is live at time
510 (time left is not 0 and `blkmk_work_left` is 1). With the hash `pickySha`,
which fails on every fold step, and a buffer of 76 bytes, the coinbase variant
is built, the merkle computation has no result and `blkmk_get_data` returns 0
with `*out_dataid = 4294967295`; `next_dataid` is 0 afterwards, not one larger
than before the call. -/
theorem get_data_hash_failure_wraps :
    blkmk_time_left exFrozenMax 510 ≠ 0 ∧ blkmk_work_left pickyEnv exFrozenMax = 1 ∧
    exFrozenMax.next_dataid = 4294967295 ∧
    (_blkmk_extranonce pickyEnv exFrozenMax
        (uninit (fun _ => 1) (size_add exFrozenMax.cbtxn.datasz 4)) exFrozenMax.next_dataid 0).map
      (fun v => (v.1, merkleRoot pickyEnv.blkmk_sha256_impl (v.2.1.take v.2.2)
        (exFrozenMax.txns.map blktxn_t.bytes))) = some (true, none) ∧
    (blkmk_get_data pickyEnv (fun _ => 1) (fun _ => 2) exFrozenMax (List.replicate 76 5) 76 510
        0).map (fun r => (r.ret, r.out_dataid, r.tmpl.next_dataid)) =
      some (0, 4294967295, 0) := by
  decide

/-- C11, the code at the failing input: the guard `in[41] > 100 - appendsz` is
evaluated in `size_t`, so for an append length above 100 the right-hand side
wraps around and the guard does not fire.  With script length 97 and 101
appended bytes (the call `blkmk_append_coinbase_safe` makes for such a
template) `_blkmk_append_cb` returns success and writes: the length byte
becomes 198.  The same happens with script length 2 into a distinct buffer:
the length byte becomes 103. -/
theorem append_cb_guard_wraps :
    exTightGrown.cbtxn.data[41]? = some 97 ∧
    _blkmk_append_cb exTightGrown none (List.replicate 101 170) 101 =
      some (true, List.replicate 41 0 ++ [198] ++ List.replicate 97 7 ++
        List.replicate 101 170 ++ [1, 2, 3, 4, 5]) ∧
    exTmpl.cbtxn.data[41]? = some 2 ∧
    _blkmk_append_cb exTmpl (some (List.replicate 150 9)) (List.replicate 101 170) 101 =
      some (true, List.replicate 41 0 ++ [103, 7, 8] ++ List.replicate 101 170 ++
        [1, 2, 3, 4, 5]) := by
  decide

/-- C12, the code at the failing input: the template permits coinbase append,
its coinbase has script length byte 97 and recorded length 144 (the layout
invariant holds: 97 ≤ 100 and 144 ≥ 42 + 97), and 101 bytes are appended with
`realloc` succeeding.  Neither guard fires (both wrap around in `size_t`), and
the call returns -1 having appended the bytes: the script length byte is 198
afterwards, above 100, and the recorded length is 245. -/
theorem append_safe_breaks_layout :
    cbMutable toyEnv exTight = true ∧ exTight.cbtxn.data[41]? = some 97 ∧
    42 + 97 ≤ exTight.cbtxn.datasz ∧
    blkmk_append_coinbase_safe toyEnv exTight (List.replicate 101 170) 101 (some fun _ => 0) =
      some (-1, { exTight with
        cbtxn := ⟨List.replicate 41 0 ++ [198] ++ List.replicate 97 7 ++
          List.replicate 101 170 ++ [1, 2, 3, 4, 5], 245⟩ }) := by
  decide

/-- C13: for a template whose mutation bitmask has neither the coinbase-append
nor the coinbase-set flag, `blkmk_append_coinbase_safe` returns -1 for every
append string, every append length and every behaviour of `realloc`, and the
template (so the coinbase bytes and the recorded length) is unchanged. -/
theorem append_safe_not_permitted (E : Env) (tmpl : blktemplate_t) (append : Bytes)
    (appendsz : Nat) (heap : Option (Nat → Nat))
    (happend : tmpl.mutations &&& E.BMM_CBAPPEND = 0)
    (hset : tmpl.mutations &&& E.BMM_CBSET = 0) :
    blkmk_append_coinbase_safe E tmpl append appendsz heap = some (-1, tmpl) := by
  have h := (cbMutable_eq_false E tmpl).mpr ⟨happend, hset⟩
  unfold blkmk_append_coinbase_safe
  simp [h]

theorem append_safe_not_permitted_witness :
    exFrozen.mutations &&& toyEnv.BMM_CBAPPEND = 0 ∧
    exFrozen.mutations &&& toyEnv.BMM_CBSET = 0 ∧
    blkmk_append_coinbase_safe toyEnv exFrozen [] 0 none = some (-1, exFrozen) ∧
    blkmk_append_coinbase_safe toyEnv exFrozen [1, 2, 3] 3 (some fun _ => 0) =
      some (-1, exFrozen) :=
  ⟨by decide, by decide,
    append_safe_not_permitted toyEnv exFrozen [] 0 none (by decide) (by decide),
    append_safe_not_permitted toyEnv exFrozen [1, 2, 3] 3 (some fun _ => 0) (by decide)
      (by decide)⟩

/-- C14: when `blkmk_time_left (tmpl, usetime)` is 0 or `blkmk_work_left (tmpl)`
is 0, `blkmk_get_data` returns 0 for every buffer and every stated capacity
(also below 76); the buffer, the template (so `next_dataid`) and `*out_dataid`
are as before the call. -/
theorem get_data_not_live (E : Env) (scratch stack : Nat → Nat) (tmpl : blktemplate_t)
    (buf : Bytes) (bufsz : Nat) (usetime : Int) (out_dataid : Nat)
    (h : blkmk_time_left tmpl usetime = 0 ∨ blkmk_work_left E tmpl = 0) :
    blkmk_get_data E scratch stack tmpl buf bufsz usetime out_dataid =
      some ⟨0, tmpl, buf, out_dataid⟩ := by
  unfold blkmk_get_data
  rcases h with h | h
  · simp [h]
  · simp [h]

theorem get_data_not_live_witness :
    (blkmk_time_left exTmpl 620 = 0 ∨ blkmk_work_left toyEnv exTmpl = 0) ∧
    blkmk_get_data toyEnv (fun _ => 1) (fun _ => 2) exTmpl [5, 5, 5] 3 620 7 =
      some ⟨0, exTmpl, [5, 5, 5], 7⟩ :=
  ⟨by decide, get_data_not_live toyEnv (fun _ => 1) (fun _ => 2) exTmpl [5, 5, 5] 3 620 7
    (by decide)⟩

/-- C15: for a live template (time left and work left non-zero) and a buffer
capacity below 76, `blkmk_get_data` returns exactly 76 and mutates nothing:
the buffer, the template (so `next_dataid`) and `*out_dataid` are as before
the call. -/
theorem get_data_size_needed (E : Env) (scratch stack : Nat → Nat) (tmpl : blktemplate_t)
    (buf : Bytes) (bufsz : Nat) (usetime : Int) (out_dataid : Nat)
    (htime : blkmk_time_left tmpl usetime ≠ 0) (hwork : blkmk_work_left E tmpl ≠ 0)
    (hsz : bufsz < 76) :
    blkmk_get_data E scratch stack tmpl buf bufsz usetime out_dataid =
      some ⟨76, tmpl, buf, out_dataid⟩ := by
  unfold blkmk_get_data
  simp [htime, hwork, hsz]

theorem get_data_size_needed_witness :
    blkmk_time_left exTmpl 510 ≠ 0 ∧ blkmk_work_left toyEnv exTmpl ≠ 0 ∧ (0 : Nat) < 76 ∧
    blkmk_get_data toyEnv (fun _ => 1) (fun _ => 2) exTmpl [] 0 510 7 =
      some ⟨76, exTmpl, [], 7⟩ :=
  ⟨by decide, by decide, by decide,
    get_data_size_needed toyEnv (fun _ => 1) (fun _ => 2) exTmpl [] 0 510 7 (by decide)
      (by decide) (by decide)⟩

/-- C16: after a successful `blkmk_get_data` call (it returns 76 for a
capacity of at least 76), when `curtime + (usetime - received time)` lies in
the 32-bit unsigned range (and `maxtime`, a time value, is not negative), bytes
[68,72) of the header are the little-endian encoding of
`min (curtime + (usetime - received time)) maxtime`: they decode to that
number, which never exceeds `maxtime`. -/
theorem get_data_header_time (E : Env) (scratch stack : Nat → Nat) (tmpl : blktemplate_t)
    (buf : Bytes) (bufsz : Nat) (usetime : Int) (out_dataid : Nat) (r : GetData)
    (h : blkmk_get_data E scratch stack tmpl buf bufsz usetime out_dataid = some r)
    (hret : r.ret = 76) (hsz : 76 ≤ bufsz)
    (hlo : 0 ≤ tmpl.curtime + (usetime - tmpl._time_rcvd))
    (hhi : tmpl.curtime + (usetime - tmpl._time_rcvd) < 2 ^ 32)
    (hmax : 0 ≤ tmpl.maxtime) :
    ∃ m : Nat, (m : Int) = min (tmpl.curtime + (usetime - tmpl._time_rcvd)) tmpl.maxtime ∧
      (m : Int) ≤ tmpl.maxtime ∧ m < 2 ^ 32 ∧
      (r.buf.drop 68).take 4 = le32 m ∧
      ∀ b0 b1 b2 b3, (r.buf.drop 68).take 4 = [b0, b1, b2, b3] →
        b0 + 256 * b1 + 65536 * b2 + 16777216 * b3 = m := by
  have hb := get_data_time_bytes E scratch stack tmpl buf bufsz usetime out_dataid r h hret hsz
  have hmin : (if tmpl.curtime + (usetime - tmpl._time_rcvd) > tmpl.maxtime then tmpl.maxtime
      else tmpl.curtime + (usetime - tmpl._time_rcvd)) =
      min (tmpl.curtime + (usetime - tmpl._time_rcvd)) tmpl.maxtime := by
    rw [Int.min_def]
    split <;> split <;> omega
  rw [hmin] at hb
  have h0 : 0 ≤ min (tmpl.curtime + (usetime - tmpl._time_rcvd)) tmpl.maxtime := by omega
  have h1 : min (tmpl.curtime + (usetime - tmpl._time_rcvd)) tmpl.maxtime < 2 ^ 32 := by omega
  have hmod : min (tmpl.curtime + (usetime - tmpl._time_rcvd)) tmpl.maxtime % 2 ^ 32 =
      min (tmpl.curtime + (usetime - tmpl._time_rcvd)) tmpl.maxtime :=
    Int.emod_eq_of_lt h0 h1
  rw [hmod] at hb
  refine ⟨(min (tmpl.curtime + (usetime - tmpl._time_rcvd)) tmpl.maxtime).toNat,
    Int.toNat_of_nonneg h0, ?_, ?_, hb, ?_⟩
  · rw [Int.toNat_of_nonneg h0]
    omega
  · omega
  · intro b0 b1 b2 b3 hbs
    rw [hb] at hbs
    exact le32_decode _ (by omega) b0 b1 b2 b3 hbs

theorem get_data_header_time_witness :
    ∃ r, blkmk_get_data toyEnv (fun _ => 1) (fun _ => 2) exTmpl (List.replicate 80 5) 80 510 0 =
        some r ∧
      r.ret = 76 ∧ (76 : Nat) ≤ 80 ∧ (0 : Int) ≤ exTmpl.curtime + (510 - exTmpl._time_rcvd) ∧
      exTmpl.curtime + (510 - exTmpl._time_rcvd) < 2 ^ 32 ∧ 0 ≤ exTmpl.maxtime ∧
      ∃ m : Nat, (m : Int) = min (exTmpl.curtime + (510 - exTmpl._time_rcvd)) exTmpl.maxtime ∧
        (m : Int) ≤ exTmpl.maxtime ∧ m < 2 ^ 32 ∧
        (r.buf.drop 68).take 4 = le32 m ∧
        ∀ b0 b1 b2 b3, (r.buf.drop 68).take 4 = [b0, b1, b2, b3] →
          b0 + 256 * b1 + 65536 * b2 + 16777216 * b3 = m :=
  ⟨(blkmk_get_data toyEnv (fun _ => 1) (fun _ => 2) exTmpl (List.replicate 80 5) 80 510 0).get
      (by decide),
    (Option.some_get _).symm, by decide, by decide, by decide, by decide, by decide,
    get_data_header_time toyEnv (fun _ => 1) (fun _ => 2) exTmpl (List.replicate 80 5) 80 510 0 _
      (Option.some_get _).symm (by decide) (by decide) (by decide) (by decide) (by decide)⟩

/-- C17: `blkmk_work_left` returns 0 when the version field is 0; otherwise 1
when the mutation bitmask has neither the coinbase-append nor the coinbase-set
flag; otherwise `UINT_MAX - next_dataid` (an exact difference, the counter
being an `unsigned int`).  These three cases are all there is, so nothing else
is ever returned. -/
theorem work_left_cases (E : Env) (tmpl : blktemplate_t) :
    (tmpl.version = 0 → blkmk_work_left E tmpl = 0) ∧
    (tmpl.version ≠ 0 → tmpl.mutations &&& E.BMM_CBAPPEND = 0 →
      tmpl.mutations &&& E.BMM_CBSET = 0 → blkmk_work_left E tmpl = 1) ∧
    (tmpl.version ≠ 0 →
      ¬ (tmpl.mutations &&& E.BMM_CBAPPEND = 0 ∧ tmpl.mutations &&& E.BMM_CBSET = 0) →
      blkmk_work_left E tmpl = UINT_MAX - tmpl.next_dataid ∧
      (tmpl.next_dataid ≤ UINT_MAX →
        ((blkmk_work_left E tmpl : Nat) : Int) = (4294967295 : Int) - tmpl.next_dataid)) := by
  refine ⟨fun hv => ?_, fun hv ha hs => ?_, fun hv hm => ?_⟩
  · simp [blkmk_work_left, hv]
  · have h := (cbMutable_eq_false E tmpl).mpr ⟨ha, hs⟩
    simp [blkmk_work_left, hv, h]
  · have h : cbMutable E tmpl = true := by
      cases hc : cbMutable E tmpl with
      | true => rfl
      | false => exact absurd ((cbMutable_eq_false E tmpl).mp hc) hm
    have hw : blkmk_work_left E tmpl = UINT_MAX - tmpl.next_dataid := by
      simp [blkmk_work_left, hv, h]
    refine ⟨hw, fun hle => ?_⟩
    rw [hw]
    unfold UINT_MAX at hle ⊢
    omega

/-- C19: whatever the outcome of `blkmk_get_data`, the coinbase transaction
(bytes and recorded length) and the other transactions are the same after the
call as before it; the template after the call differs from the one before at
most in `next_dataid` and `_mrklroot`. -/
theorem get_data_frame (E : Env) (scratch stack : Nat → Nat) (tmpl : blktemplate_t)
    (buf : Bytes) (bufsz : Nat) (usetime : Int) (out_dataid : Nat) (r : GetData)
    (h : blkmk_get_data E scratch stack tmpl buf bufsz usetime out_dataid = some r) :
    r.tmpl.cbtxn.data = tmpl.cbtxn.data ∧ r.tmpl.cbtxn.datasz = tmpl.cbtxn.datasz ∧
    r.tmpl.txns = tmpl.txns ∧
    r.tmpl = { tmpl with next_dataid := r.tmpl.next_dataid, _mrklroot := r.tmpl._mrklroot } := by
  rcases get_data_cases E scratch stack tmpl buf bufsz usetime out_dataid r h with
    ⟨h1, _⟩ | ⟨h1, _⟩ | ⟨_, _, _, _, _, mr, h3⟩
  · rw [h1]
    exact ⟨rfl, rfl, rfl, rfl⟩
  · rw [h1]
    exact ⟨rfl, rfl, rfl, rfl⟩
  · rw [h3]
    exact ⟨rfl, rfl, rfl, rfl⟩

theorem get_data_frame_witness :
    (∃ r, blkmk_get_data toyEnv (fun _ => 1) (fun _ => 2) exTmpl (List.replicate 80 5) 80 510 0 =
        some r ∧ r.ret = 76 ∧
      r.tmpl.cbtxn.data = exTmpl.cbtxn.data ∧ r.tmpl.cbtxn.datasz = exTmpl.cbtxn.datasz ∧
      r.tmpl.txns = exTmpl.txns ∧
      r.tmpl = { exTmpl with next_dataid := r.tmpl.next_dataid,
                             _mrklroot := r.tmpl._mrklroot }) ∧
    (∃ r, blkmk_get_data pickyEnv (fun _ => 1) (fun _ => 2) exTmpl (List.replicate 80 5) 80 510
        0 = some r ∧ r.ret = 0 ∧
      r.tmpl.cbtxn.data = exTmpl.cbtxn.data ∧ r.tmpl.cbtxn.datasz = exTmpl.cbtxn.datasz ∧
      r.tmpl.txns = exTmpl.txns ∧
      r.tmpl = { exTmpl with next_dataid := r.tmpl.next_dataid,
                             _mrklroot := r.tmpl._mrklroot }) :=
  ⟨⟨(blkmk_get_data toyEnv (fun _ => 1) (fun _ => 2) exTmpl (List.replicate 80 5) 80 510 0).get
      (by decide),
    (Option.some_get _).symm, by decide,
    get_data_frame toyEnv (fun _ => 1) (fun _ => 2) exTmpl (List.replicate 80 5) 80 510 0 _
      (Option.some_get _).symm⟩,
   ⟨(blkmk_get_data pickyEnv (fun _ => 1) (fun _ => 2) exTmpl (List.replicate 80 5) 80 510 0).get
      (by decide),
    (Option.some_get _).symm, by decide,
    get_data_frame pickyEnv (fun _ => 1) (fun _ => 2) exTmpl (List.replicate 80 5) 80 510 0 _
      (Option.some_get _).symm⟩⟩

/-- C20: for a coinbase with script length `l ≤ 96` and at least one byte after
the payload, the byte strings that `_blkmk_extranonce` produces for two
distinct work identifiers differ: in length when one of the identifiers is 0,
and otherwise in the four spliced bytes at offset `42 + l`.  The object
representation of an `unsigned int` has four bytes and distinct values have
distinct representations. -/
theorem extranonce_variants_distinct (E : Env) (tmpl : blktemplate_t) (vout : Bytes)
    (a b l : Nat) (hab : a ≠ b) (ha : a < 2 ^ 32) (hb : b < 2 ^ 32)
    (hrepr : ∀ w, (E.uint_repr w).length = 4)
    (hinj : ∀ x y, x < 2 ^ 32 → y < 2 ^ 32 → E.uint_repr x = E.uint_repr y → x = y)
    (hl : tmpl.cbtxn.data[41]? = some l) (hl96 : l ≤ 96)
    (hn : 42 + l < tmpl.cbtxn.datasz)
    (hsz : tmpl.cbtxn.datasz ≤ tmpl.cbtxn.data.length)
    (hM : tmpl.cbtxn.datasz + 4 < 2 ^ 64)
    (hcap : tmpl.cbtxn.datasz + 4 ≤ vout.length) :
    ∃ oa sa ob sb, _blkmk_extranonce E tmpl vout a 0 = some (true, oa, sa) ∧
      _blkmk_extranonce E tmpl vout b 0 = some (true, ob, sb) ∧
      oa.take sa ≠ ob.take sb ∧
      (a = 0 ∨ b = 0 → (oa.take sa).length ≠ (ob.take sb).length) ∧
      (a ≠ 0 → b ≠ 0 →
        ((oa.take sa).drop (42 + l)).take 4 = E.uint_repr a ∧
        ((ob.take sb).drop (42 + l)).take 4 = E.uint_repr b ∧
        E.uint_repr a ≠ E.uint_repr b) := by
  have hs0 : size_add 0 tmpl.cbtxn.datasz = tmpl.cbtxn.datasz := by
    unfold size_add SIZE_MOD
    omega
  have hs4 : size_add 0 (size_add tmpl.cbtxn.datasz 4) = tmpl.cbtxn.datasz + 4 := by
    unfold size_add SIZE_MOD
    omega
  have hne : E.uint_repr a ≠ E.uint_repr b := fun h => hab (hinj a b ha hb h)
  -- the string produced for the identifier 0
  have hzero : ∃ o, _blkmk_extranonce E tmpl vout 0 0 = some (true, o, tmpl.cbtxn.datasz) ∧
      (o.take tmpl.cbtxn.datasz).length = tmpl.cbtxn.datasz := by
    refine ⟨tmpl.cbtxn.data.take tmpl.cbtxn.datasz ++ vout.drop tmpl.cbtxn.datasz, ?_, ?_⟩
    · rw [extranonce_zero_eq E tmpl vout 0 hsz (by omega), hs0]
    · simp only [List.length_take, List.length_append, List.length_drop]
      omega
  -- the string produced for a non-zero identifier
  have hnz : ∀ w, w ≠ 0 → ∃ o, _blkmk_extranonce E tmpl vout w 0 =
        some (true, o, tmpl.cbtxn.datasz + 4) ∧
      o.take (tmpl.cbtxn.datasz + 4) = spliced tmpl.cbtxn.data l tmpl.cbtxn.datasz (E.uint_repr w) ∧
      (o.take (tmpl.cbtxn.datasz + 4)).length = tmpl.cbtxn.datasz + 4 ∧
      ((o.take (tmpl.cbtxn.datasz + 4)).drop (42 + l)).take 4 = E.uint_repr w := by
    intro w hw
    obtain ⟨o, h1, h2⟩ := extranonce_nonzero_eq E tmpl vout w 0 l hw (hrepr w) hl hl96 hn hsz
      (by unfold SIZE_MOD; omega) hcap
    rw [hs4] at h1
    refine ⟨o, h1, h2, ?_, ?_⟩
    · rw [h2, spliced_length (by omega) hsz, hrepr w]
    · rw [h2]
      have := @spliced_window tmpl.cbtxn.data l tmpl.cbtxn.datasz (E.uint_repr w) (by omega) hsz
      rw [hrepr w] at this
      exact this
  by_cases ha0 : a = 0
  · have hb0 : b ≠ 0 := fun h => hab (by rw [ha0, h])
    obtain ⟨oa, e1, e2⟩ := hzero
    obtain ⟨ob, f1, _, f3, _⟩ := hnz b hb0
    subst ha0
    have hlen : (oa.take tmpl.cbtxn.datasz).length ≠
        (ob.take (tmpl.cbtxn.datasz + 4)).length := by
      rw [e2, f3]
      omega
    exact ⟨oa, _, ob, _, e1, f1, fun h => hlen (by rw [h]), fun _ => hlen,
      fun h => absurd rfl h⟩
  · by_cases hb0 : b = 0
    · obtain ⟨ob, e1, e2⟩ := hzero
      obtain ⟨oa, f1, _, f3, _⟩ := hnz a ha0
      subst hb0
      have hlen : (oa.take (tmpl.cbtxn.datasz + 4)).length ≠
          (ob.take tmpl.cbtxn.datasz).length := by
        rw [e2, f3]
        omega
      exact ⟨oa, _, ob, _, f1, e1, fun h => hlen (by rw [h]), fun _ => hlen,
        fun _ h => absurd rfl h⟩
    · obtain ⟨oa, e1, _, _, e4⟩ := hnz a ha0
      obtain ⟨ob, f1, _, _, f4⟩ := hnz b hb0
      refine ⟨oa, _, ob, _, e1, f1, ?_, ?_, fun _ _ => ⟨e4, f4, hne⟩⟩
      · intro h
        apply hne
        rw [← e4, ← f4, h]
      · intro h
        rcases h with h | h
        · exact absurd h ha0
        · exact absurd h hb0

theorem extranonce_variants_distinct_witness :
    (5 : Nat) ≠ 6 ∧ (5 : Nat) < 2 ^ 32 ∧ (6 : Nat) < 2 ^ 32 ∧
    (∀ w, (toyEnv.uint_repr w).length = 4) ∧
    (∀ x y, x < 2 ^ 32 → y < 2 ^ 32 → toyEnv.uint_repr x = toyEnv.uint_repr y → x = y) ∧
    exTmpl.cbtxn.data[41]? = some 2 ∧ (2 : Nat) ≤ 96 ∧ 42 + 2 < exTmpl.cbtxn.datasz ∧
    exTmpl.cbtxn.datasz ≤ exTmpl.cbtxn.data.length ∧ exTmpl.cbtxn.datasz + 4 < 2 ^ 64 ∧
    exTmpl.cbtxn.datasz + 4 ≤ (List.replicate 53 9).length ∧
    ∃ oa sa ob sb, _blkmk_extranonce toyEnv exTmpl (List.replicate 53 9) 5 0 =
        some (true, oa, sa) ∧
      _blkmk_extranonce toyEnv exTmpl (List.replicate 53 9) 6 0 = some (true, ob, sb) ∧
      oa.take sa ≠ ob.take sb ∧
      ((5 : Nat) = 0 ∨ (6 : Nat) = 0 → (oa.take sa).length ≠ (ob.take sb).length) ∧
      ((5 : Nat) ≠ 0 → (6 : Nat) ≠ 0 →
        ((oa.take sa).drop (42 + 2)).take 4 = toyEnv.uint_repr 5 ∧
        ((ob.take sb).drop (42 + 2)).take 4 = toyEnv.uint_repr 6 ∧
        toyEnv.uint_repr 5 ≠ toyEnv.uint_repr 6) :=
  ⟨by decide, by decide, by decide, fun _ => rfl, le_repr_injective, by decide, by decide,
    by decide, by decide, by decide, by decide,
    extranonce_variants_distinct toyEnv exTmpl (List.replicate 53 9) 5 6 2 (by decide)
      (by decide) (by decide) (fun _ => rfl) le_repr_injective (by decide) (by decide)
      (by decide) (by decide) (by decide) (by decide)⟩

end Blkmaker
